import Mathlib

/-!
# The DSN parser of `libmariadb/mariadb_dsn.c`

A shallow embedding of `ma_parse_dsn`.  Bytes (`char`) are natural numbers,
the working buffer `dsn_save` is a list of bytes, and the pointers `pos`,
`end`, `key` and `val` are offsets into it (`key`/`val` are `none` for `NULL`).
The calls to `_mariadb_set_conf_option` are recorded in order, each with the
C strings its two pointer arguments designate at the time of the call.
-/

namespace MariadbDsn

/-- One call `_mariadb_set_conf_option(mysql, key, val)`: the key string and the
value string (`none` for a `NULL` value pointer). -/
abbrev Call := List Nat × Option (List Nat)

/-- The observable result of `ma_parse_dsn`: the return code, the offset handed to
`my_set_error` (when the error path is taken) and the applier calls, in order. -/
structure Outcome where
  ret : Nat
  err : Option Nat
  calls : List Call
deriving DecidableEq, Repr

/-- The local variables of `ma_parse_dsn` inside the scan loop, together with the
calls made so far.  `endp` is the C variable `end`. -/
structure State where
  buf : List Nat
  pos : Nat
  endp : Nat
  key : Option Nat
  val : Option Nat
  in_curly_brace : Bool
  calls : List Call
deriving DecidableEq, Repr

/-- The result of one iteration of the loop: `goto error`, or the next state. -/
inductive Step where
  | error : Step
  | next : State → Step
deriving DecidableEq, Repr

/-- C `isspace` in the "C" locale: space, `\t`, `\n`, `\v`, `\f`, `\r`. -/
def isspace (c : Nat) : Bool := c == 32 || (9 ≤ c && c ≤ 13)

/-- C `tolower` in the "C" locale. -/
def tolower (c : Nat) : Nat := if 65 ≤ c ∧ c ≤ 90 then c + 32 else c

/-- C `strcasecmp` on the contents of two C strings. -/
def strcasecmp : List Nat → List Nat → Int
  | [], [] => 0
  | [], b :: _ => 0 - (tolower b : Int)
  | a :: _, [] => (tolower a : Int)
  | a :: as, b :: bs =>
    if tolower a = tolower b then strcasecmp as bs else (tolower a : Int) - (tolower b : Int)

/-- The bytes of an ASCII string literal. -/
def ascii (s : String) : List Nat := s.toList.map Char.toNat

/-- The literal `"dsn"`. -/
def dsnKeyword : List Nat := [100, 115, 110]

/-- The C string that starts at offset `i` of the buffer: the bytes up to the first
zero byte. -/
def cstr (buf : List Nat) (i : Nat) : List Nat := (buf.drop i).takeWhile (fun b => b != 0)

/-- C `memmove(buf + dst, buf + src, n)`. -/
def memmove (buf : List Nat) (dst src n : Nat) : List Nat :=
  buf.take dst ++ (buf.drop src).take n ++ buf.drop (dst + n)

/-- The guarded call
`if (key && strcasecmp(key, "dsn") != 0) _mariadb_set_conf_option(mysql, key, val);`. -/
def apply_option (buf : List Nat) (key val : Option Nat) (calls : List Call) : List Call :=
  match key with
  | none => calls
  | some k =>
    if strcasecmp (cstr buf k) dsnKeyword ≠ 0 then
      calls ++ [(cstr buf k, val.map (cstr buf))]
    else calls

/-- The code after the `switch`: `if (!key && *pos) key= pos; pos++;`. -/
def after_switch (s : State) : Step :=
  let c := s.buf.getD s.pos 0
  let key := if s.key.isNone ∧ c ≠ 0 then some s.pos else s.key
  .next { s with key := key, pos := s.pos + 1 }

/-- One iteration of the body of `while (pos <= end)`. -/
def step (s : State) : Step :=
  let c := s.buf.getD s.pos 0
  if isspace c && !s.in_curly_brace then
    .next { s with pos := s.pos + 1 }
  else if c = 123 then                                   -- case '{'
    if s.key.isNone then .error
    else if !s.in_curly_brace then
      if s.pos < s.endp then
        after_switch { s with in_curly_brace := true, pos := s.pos + 1, val := some (s.pos + 1) }
      else after_switch { s with in_curly_brace := true }
    else after_switch s
  else if c = 125 then                                   -- case '}'
    if s.in_curly_brace then
      if s.key.isNone then .error
      else if s.pos < s.endp ∧ s.buf.getD (s.pos + 1) 0 = 125 then
        .next { s with buf := memmove s.buf s.pos (s.pos + 1) (s.endp - s.pos - 1),
                       endp := s.endp - 1, pos := s.pos + 2 }
      else if s.in_curly_brace then
        .next { s with in_curly_brace := false, buf := s.buf.set s.pos 0, pos := s.pos + 1 }
      else .error
    else after_switch s
  else if c = 61 then                                    -- case '='
    if s.in_curly_brace then .next { s with pos := s.pos + 1 }
    else if s.key.isNone then .error
    else
      .next { s with buf := s.buf.set s.pos 0, pos := s.pos + 1,
                     val := if s.pos + 1 < s.endp then some (s.pos + 1) else s.val }
  else if c = 59 then                                    -- case ';'
    if s.in_curly_brace then .next { s with pos := s.pos + 1 }
    else if s.key.isNone then .error
    else
      let buf := s.buf.set s.pos 0
      .next { s with buf := buf, pos := s.pos + 1,
                     calls := apply_option buf s.key s.val s.calls,
                     key := none, val := none }
  else after_switch s

/-- The statements after the loop: the pending pair is flushed and 0 is returned. -/
def finish (s : State) : Outcome :=
  { ret := 0, err := none, calls := apply_option s.buf s.key s.val s.calls }

/-- The `error:` label: `my_set_error(..., pos - dsn_save); return 1;`. -/
def fail (s : State) : Outcome :=
  { ret := 1, err := some s.pos, calls := s.calls }

/-- The loop `while (pos <= end)` followed by the function's exits, run for at most
`fuel` evaluations of the loop condition; `none` when the fuel runs out. -/
def run : Nat → State → Option Outcome
  | 0, _ => none
  | fuel + 1, s =>
    if s.pos ≤ s.endp then
      match step s with
      | .error => some (fail s)
      | .next s' => run fuel s'
    else some (finish s)

/-- C `strlen`: the number of bytes before the first zero byte; `none` when the
object holds no zero byte (the read would leave it). -/
def strlen : List Nat → Option Nat
  | [] => none
  | b :: bs => if b = 0 then some 0 else (strlen bs).map (· + 1)

/-- The state at loop entry: `dsn_save` holds the `len` copied bytes and a zero,
`pos= dsn_save`, `end= dsn_save + len`. -/
def init (bytes : List Nat) : State :=
  { buf := bytes ++ [0], pos := 0, endp := bytes.length,
    key := none, val := none, in_curly_brace := false, calls := [] }

/-- The function `ma_parse_dsn(mysql, dsn, len)`.  `dsn` is the object the pointer
designates.  The result is `none` where C gives the call no meaning: a `len` below
-1 or beyond the object, or `len == -1` on an object without a zero byte. -/
def ma_parse_dsn (dsn : List Nat) (len : Int) : Option Outcome :=
  let len' : Option Nat :=
    if len = -1 then strlen dsn
    else if 0 ≤ len ∧ len.toNat ≤ dsn.length then some len.toNat
    else none
  match len' with
  | none => none
  | some n => run (n + 2) (init (dsn.take n))

/-- The loop state whose cursor stands between the scanned bytes `scanned` and the
bytes `rest` still ahead of it. -/
def S (scanned rest : List Nat) (endp : Nat) (key val : Option Nat) (q : Bool)
    (calls : List Call) : State :=
  { buf := scanned ++ rest, pos := scanned.length, endp := endp,
    key := key, val := val, in_curly_brace := q, calls := calls }

/-- A byte that an unquoted key or value may hold: not NUL, not whitespace and none
of `;`, `=`, `{`. -/
def tokbyte (c : Nat) : Bool := c != 0 && !isspace c && c != 59 && c != 61 && c != 123

/-- A plain byte: not NUL, not whitespace and none of `;`, `=`, `{`, `}`. -/
def plain (c : Nat) : Bool := tokbyte c && c != 125

/-- A non-empty string of bytes of the class `P`. -/
def token (P : Nat → Bool) (t : List Nat) : Bool := !t.isEmpty && t.all P

/-- A pair `k` or `k=v` whose key and value (when present) are non-empty strings of
bytes of the class `P`. -/
def wfPair (P : Nat → Bool) (p : Call) : Bool :=
  token P p.1 && (match p.2 with | none => true | some v => token P v)

/-- The text of a pair: `k`, or `k=v`. -/
def renderPair (p : Call) : List Nat :=
  match p.2 with
  | none => p.1
  | some v => p.1 ++ 61 :: v

/-- The pairs, each followed by `;`. -/
def renderTerminated : List Call → List Nat
  | [] => []
  | p :: ps => renderPair p ++ 59 :: renderTerminated ps

/-- The pairs joined by `;`, without a trailing `;`. -/
def renderJoined : List Call → List Nat
  | [] => []
  | [p] => renderPair p
  | p :: q :: ps => renderPair p ++ 59 :: renderJoined (q :: ps)

/-- The input made of the pairs joined by `;`, with or without one trailing `;`. -/
def render (ps : List Call) (trailing : Bool) : List Nat :=
  if trailing then renderTerminated ps else renderJoined ps

/-- The key is the reserved word `dsn`, ignoring case (the test of the source). -/
def isDsn (k : List Nat) : Bool := strcasecmp k dsnKeyword == 0

/-- The calls expected for a list of pairs: every pair whose key is not `dsn`. -/
def forwarded (ps : List Call) : List Call := ps.filter (fun p => !isDsn p.1)

/-- The loop started in `s` ends with outcome `r`. -/
def EvalTo (s : State) (r : Outcome) : Prop := ∃ fuel, run fuel s = some r

/-- The bytes a pair leaves in the buffer once scanned: its `=` is overwritten by 0. -/
def scannedPair (p : Call) : List Nat :=
  match p.2 with
  | none => p.1
  | some v => p.1 ++ 0 :: v

/-- The value pointer after a pair that starts at offset `i` has been scanned. -/
def valOf (p : Call) (i : Nat) : Option Nat := p.2.map (fun _ => i + p.1.length + 1)

/-- Two byte strings are equal ignoring ASCII case. -/
def eqIgnoreCase (a b : List Nat) : Bool := a.map tolower == b.map tolower

/-- The index of the first zero byte of a byte sequence. -/
def firstZero (b : List Nat) : Nat := b.indexOf 0

/-- The bytes with every ASCII whitespace byte removed. -/
def stripSpace (b : List Nat) : List Nat := b.filter (fun c => !isspace c)

/-- The brace-doubling encoding: every `}` is written `}}`. -/
def doubleBraces : List Nat → List Nat
  | [] => []
  | c :: cs => if c = 125 then 125 :: 125 :: doubleBraces cs else c :: doubleBraces cs

/-- The state after `n` completed iterations of the loop, that is, the state at the
start of iteration `n + 1` (or at the exit of the loop); `none` when the loop ended
or took `goto error` before. -/
def stateAfter : Nat → State → Option State
  | 0, s => some s
  | n + 1, s =>
    if s.pos ≤ s.endp then
      match step s with
      | .error => none
      | .next s' => stateAfter n s'
    else none

/-- The arguments of `mysql_real_connect` after the handle: host, user, passwd, db,
port, unix_socket, clientflag (`none` for a `NULL` string). -/
structure ConnectArgs where
  host : Option (List Nat)
  user : Option (List Nat)
  passwd : Option (List Nat)
  db : Option (List Nat)
  port : Nat
  unix_socket : Option (List Nat)
  clientflag : Nat
deriving DecidableEq, Repr

/-- What a call of `mariadb_dsn_connect` does: the pointer it returns (`none` for
`NULL`), the outcome of `ma_parse_dsn` when the parser was run, and the calls of
`mysql_real_connect` it made, in order. -/
structure ConnectTrace (H : Type) where
  result : Option H
  parsed : Option Outcome
  attempts : List ConnectArgs

/-- The function `mariadb_dsn_connect(mysql, dsn, len)`.  `mysql_real_connect`, which
is not part of the file, is a parameter: it receives the handle, the options the parser
applied to it and the connection arguments.  The result is `none` where the call of
`ma_parse_dsn` has no meaning. -/
def mariadb_dsn_connect {H : Type}
    (mysql_real_connect : H → List Call → ConnectArgs → Option H)
    (mysql : Option H) (dsn : List Nat) (len : Int) : Option (ConnectTrace H) :=
  match mysql with
  | none => some { result := none, parsed := none, attempts := [] }
  | some h =>
    match ma_parse_dsn dsn len with
    | none => none
    | some o =>
      if o.ret = 0 then
        let args : ConnectArgs :=
          { host := none, user := none, passwd := none, db := none, port := 0,
            unix_socket := none, clientflag := 0 }
        some { result := mysql_real_connect h o.calls args, parsed := some o,
               attempts := [args] }
      else some { result := none, parsed := some o, attempts := [] }

/-- A byte the scan passes over without setting a key: ASCII whitespace or NUL. -/
def blank (c : Nat) : Bool := isspace c || c == 0

/-- The bytes start with whitespace and NUL bytes only, followed by `=` or `;`. -/
def KeylessAtStart (s : List Nat) : Prop :=
  ∃ blanks c rest, s = blanks ++ c :: rest ∧ (∀ b ∈ blanks, blank b = true) ∧
    (c = 61 ∨ c = 59)

/-- Some `;` of the bytes is followed by whitespace and NUL bytes only and then by
`=` or `;`. -/
def KeylessAfterSemi (s : List Nat) : Prop :=
  ∃ pre tail, s = pre ++ 59 :: tail ∧ KeylessAtStart tail

/-- The condition of the specification for a failure without braces: there is a byte
`=` or `;` such that every byte between the previous `;` (or the start of the input)
and it is ASCII whitespace or NUL. -/
def KeylessSeparator (s : List Nat) : Prop := KeylessAtStart s ∨ KeylessAfterSemi s

/-- The same condition by indices: `s[i]` is `=` or `;`, and from the index `first`,
which is 0 or the index after a `;`, up to `i` (excluded) every byte is ASCII
whitespace or NUL. -/
def KeylessIndex (s : List Nat) : Prop :=
  ∃ i first, first ≤ i ∧ i < s.length ∧ (s.getD i 0 = 61 ∨ s.getD i 0 = 59) ∧
    (first = 0 ∨ s.getD (first - 1) 0 = 59) ∧
    ∀ j, first ≤ j → j < i → blank (s.getD j 0) = true

/-- Whether the scan of bytes without `{` meets `=` or `;` with no key, `key` telling
whether a key is set before the first byte. -/
def failsFrom : Bool → List Nat → Bool
  | _, [] => false
  | key, c :: cs =>
    if blank c then failsFrom key cs
    else if c = 61 then (if key then failsFrom true cs else true)
    else if c = 59 then (if key then failsFrom false cs else true)
    else failsFrom true cs

/-- The offsets of `dsn_save` that one iteration of the loop reads or writes: the byte
at `pos` (tested by `isspace` and the `switch`, overwritten with 0 by the cases `}`,
`=` and `;`), the byte at `pos + 1` looked at by the case `}` when quoting with
`pos < end`, and, for a doubled `}`, the `end - pos - 1` bytes `memmove` reads from
`pos + 1` on and the as many bytes it writes from `pos` on. -/
def touched (s : State) : List Nat :=
  let c := s.buf.getD s.pos 0
  if c = 125 ∧ s.in_curly_brace = true ∧ s.key.isSome = true ∧ s.pos < s.endp then
    if s.buf.getD (s.pos + 1) 0 = 125 then
      s.pos :: (s.pos + 1) ::
        ((List.range (s.endp - s.pos - 1)).map (fun i => s.pos + 1 + i) ++
          (List.range (s.endp - s.pos - 1)).map (fun i => s.pos + i))
    else [s.pos, s.pos + 1]
  else [s.pos]

/-- The buffer of a state is the `len + 1` bytes of `dsn_save` with a zero at offset
`len`, and `end`, `key` and `val` point into it. -/
def Safe (len : Nat) (s : State) : Prop :=
  s.buf.length = len + 1 ∧ s.buf[len]? = some 0 ∧ s.endp ≤ len ∧
    (∀ p, s.key = some p → p ≤ len) ∧ (∀ p, s.val = some p → p ≤ len)

/-! ## Termination of the loop -/

theorem after_switch_next (s s' : State) (hs : after_switch s = .next s') :
    s'.endp = s.endp ∧ s'.pos = s.pos + 1 := by
  unfold after_switch at hs
  injection hs with hs
  subst hs
  exact ⟨rfl, rfl⟩

theorem step_progress (s s' : State) (hs : step s = .next s') :
    s'.endp ≤ s.endp ∧ s.pos + 1 ≤ s'.pos := by
  simp only [step] at hs
  repeat' split at hs
  all_goals first
    | (cases hs; done)
    | (have h := after_switch_next _ _ hs; simp at h; omega)
    | (injection hs with hs; subst hs; simp)

theorem step_measure (s s' : State) (h : s.pos ≤ s.endp) (hs : step s = .next s') :
    s'.endp + 1 - s'.pos < s.endp + 1 - s.pos := by
  have := step_progress s s' hs
  omega

theorem run_total : ∀ (fuel : Nat) (s : State), s.endp + 1 - s.pos < fuel →
    ∃ r, run fuel s = some r := by
  intro fuel
  induction fuel with
  | zero => intro s h; omega
  | succ n ih =>
    intro s h
    unfold run
    by_cases hp : s.pos ≤ s.endp
    · rw [if_pos hp]
      cases hs : step s with
      | error => exact ⟨_, rfl⟩
      | next s' =>
        have := step_measure s s' hp hs
        exact ih s' (by omega)
    · rw [if_neg hp]; exact ⟨_, rfl⟩

theorem run_succ : ∀ (fuel : Nat) (s : State) (r : Outcome),
    run fuel s = some r → run (fuel + 1) s = some r := by
  intro fuel
  induction fuel with
  | zero => intro s r h; simp [run] at h
  | succ n ih =>
    intro s r h
    unfold run at h ⊢
    by_cases hp : s.pos ≤ s.endp
    · rw [if_pos hp] at h ⊢
      cases hs : step s with
      | error => rw [hs] at h; exact h
      | next s' => rw [hs] at h; exact ih s' r h
    · rw [if_neg hp] at h ⊢; exact h

theorem run_mono (fuel k : Nat) (s : State) (r : Outcome) (h : run fuel s = some r) :
    run (fuel + k) s = some r := by
  induction k with
  | zero => exact h
  | succ k ih => exact run_succ _ _ _ ih

theorem EvalTo.run_eq {s : State} {r : Outcome} (h : EvalTo s r) (fuel : Nat)
    (hf : s.endp + 1 - s.pos < fuel) : run fuel s = some r := by
  obtain ⟨f, hf'⟩ := h
  obtain ⟨r', hr'⟩ := run_total fuel s hf
  have h1 := run_mono f fuel s r hf'
  have h2 := run_mono fuel f s r' hr'
  rw [Nat.add_comm] at h2
  rw [h1] at h2
  rw [hr']; exact h2.symm

theorem EvalTo.of_step {s s' : State} {r : Outcome} (hp : s.pos ≤ s.endp)
    (hs : step s = .next s') (h : EvalTo s' r) : EvalTo s r := by
  obtain ⟨f, hf⟩ := h
  refine ⟨f + 1, ?_⟩
  rw [run, if_pos hp, hs]; exact hf

theorem EvalTo.of_error {s : State} (hp : s.pos ≤ s.endp) (hs : step s = .error) :
    EvalTo s (fail s) := by
  refine ⟨1, ?_⟩
  rw [run, if_pos hp, hs]

theorem EvalTo.of_exit {s : State} (hp : s.endp < s.pos) : EvalTo s (finish s) := by
  refine ⟨1, ?_⟩
  rw [run, if_neg (by omega)]

theorem ma_parse_dsn_length (s : List Nat) :
    ma_parse_dsn s (s.length : Int) = run (s.length + 2) (init s) := by
  have h : ((s.length : Int) = -1) = False := by
    apply eq_false; omega
  simp [ma_parse_dsn, h]

theorem ma_parse_dsn_of_evalTo {s : List Nat} {r : Outcome} (h : EvalTo (init s) r) :
    ma_parse_dsn s (s.length : Int) = some r := by
  rw [ma_parse_dsn_length]
  exact h.run_eq _ (by simp [init])

/-! ## Single iterations, by the byte under the cursor -/

theorem getD_mid (a r : List Nat) (c d : Nat) : (a ++ c :: r).getD a.length d = c := by
  induction a with
  | nil => rfl
  | cons b a ih => exact ih

theorem getD_mid_succ (a r : List Nat) (c x d : Nat) :
    (a ++ c :: x :: r).getD (a.length + 1) d = x := by
  have h : a ++ c :: x :: r = (a ++ [c]) ++ x :: r := by simp
  rw [h]
  have h2 : a.length + 1 = (a ++ [c]).length := by simp
  rw [h2]
  exact getD_mid _ _ _ _

theorem set_mid (a r : List Nat) (c x : Nat) : (a ++ c :: r).set a.length x = a ++ x :: r := by
  induction a with
  | nil => rfl
  | cons b a ih => simp [ih]

theorem S_snoc (a r : List Nat) (c : Nat) (E : Nat) (k v : Option Nat) (q : Bool)
    (cs : List Call) :
    ({ buf := a ++ c :: r, pos := a.length + 1, endp := E, key := k, val := v,
       in_curly_brace := q, calls := cs } : State) = S (a ++ [c]) r E k v q cs := by
  simp [S]

theorem step_S_tok (a r : List Nat) (c E k : Nat) (v : Option Nat) (cs : List Call)
    (hc : tokbyte c = true) :
    step (S a (c :: r) E (some k) v false cs) = .next (S (a ++ [c]) r E (some k) v false cs) := by
  simp only [tokbyte, Bool.and_eq_true, bne_iff_ne, ne_eq, Bool.not_eq_true'] at hc
  obtain ⟨⟨⟨⟨h0, hs⟩, h59⟩, h61⟩, h123⟩ := hc
  rw [← S_snoc]
  simp [-List.getD_eq_getElem?_getD, S, step, after_switch, getD_mid, hs, h59, h61, h123]

theorem step_S_key (a r : List Nat) (c E : Nat) (v : Option Nat) (cs : List Call)
    (hc : tokbyte c = true) :
    step (S a (c :: r) E none v false cs) =
      .next (S (a ++ [c]) r E (some a.length) v false cs) := by
  simp only [tokbyte, Bool.and_eq_true, bne_iff_ne, ne_eq, Bool.not_eq_true'] at hc
  obtain ⟨⟨⟨⟨h0, hs⟩, h59⟩, h61⟩, h123⟩ := hc
  rw [← S_snoc]
  simp [-List.getD_eq_getElem?_getD, S, step, after_switch, getD_mid, hs, h59, h61, h123, h0]

theorem step_S_eq (a r : List Nat) (E k : Nat) (v : Option Nat) (cs : List Call) :
    step (S a (61 :: r) E (some k) v false cs) =
      .next (S (a ++ [0]) r E (some k)
        (if a.length + 1 < E then some (a.length + 1) else v) false cs) := by
  rw [← S_snoc]
  simp [-List.getD_eq_getElem?_getD, S, step, getD_mid, set_mid, isspace]

theorem step_S_semi (a r : List Nat) (E k : Nat) (v : Option Nat) (cs : List Call) :
    step (S a (59 :: r) E (some k) v false cs) =
      .next (S (a ++ [0]) r E none none false
        (apply_option (a ++ 0 :: r) (some k) v cs)) := by
  rw [← S_snoc]
  simp [-List.getD_eq_getElem?_getD, S, step, getD_mid, set_mid, isspace]

theorem step_S_nul (a r : List Nat) (E : Nat) (k v : Option Nat) (q : Bool)
    (cs : List Call) :
    step (S a (0 :: r) E k v q cs) = .next (S (a ++ [0]) r E k v q cs) := by
  rw [← S_snoc]
  simp [-List.getD_eq_getElem?_getD, S, step, after_switch, getD_mid, isspace]

theorem step_S_space (a r : List Nat) (c E : Nat) (k v : Option Nat) (cs : List Call)
    (hc : isspace c = true) :
    step (S a (c :: r) E k v false cs) = .next (S (a ++ [c]) r E k v false cs) := by
  rw [← S_snoc]
  simp [-List.getD_eq_getElem?_getD, S, step, getD_mid, hc]

theorem step_S_err (a r : List Nat) (c E : Nat) (v : Option Nat) (cs : List Call)
    (hc : c = 61 ∨ c = 59 ∨ c = 123) :
    step (S a (c :: r) E none v false cs) = .error := by
  rcases hc with h | h | h <;> subst h <;>
    simp [-List.getD_eq_getElem?_getD, S, step, getD_mid, isspace]

theorem step_S_open (a r : List Nat) (x E k : Nat) (v : Option Nat) (cs : List Call)
    (hE : a.length < E) :
    step (S a (123 :: x :: r) E (some k) v false cs) =
      .next (S (a ++ [123, x]) r E (some k) (some (a.length + 1)) true cs) := by
  simp [-List.getD_eq_getElem?_getD, S, step, after_switch, getD_mid, isspace, hE]

theorem step_S_quoted (a r : List Nat) (c E k : Nat) (v : Option Nat) (cs : List Call)
    (hc : c ≠ 125) :
    step (S a (c :: r) E (some k) v true cs) = .next (S (a ++ [c]) r E (some k) v true cs) := by
  rw [← S_snoc]
  by_cases h1 : c = 123
  · subst h1; simp [-List.getD_eq_getElem?_getD, S, step, after_switch, getD_mid]
  by_cases h2 : c = 61
  · subst h2; simp [-List.getD_eq_getElem?_getD, S, step, after_switch, getD_mid]
  by_cases h3 : c = 59
  · subst h3; simp [-List.getD_eq_getElem?_getD, S, step, after_switch, getD_mid]
  simp [-List.getD_eq_getElem?_getD, S, step, after_switch, getD_mid, h1, h2, h3, hc]

theorem step_S_close (a r : List Nat) (x E k : Nat) (v : Option Nat) (cs : List Call)
    (hx : x ≠ 125) :
    step (S a (125 :: x :: r) E (some k) v true cs) =
      .next (S (a ++ [0]) (x :: r) E (some k) v false cs) := by
  rw [← S_snoc]
  simp [-List.getD_eq_getElem?_getD, S, step, getD_mid, getD_mid_succ, set_mid, hx]

/-! ## Runs of iterations over a token, a pair and a list of pairs -/

@[simp]
theorem S_pos (a r : List Nat) (E : Nat) (k v : Option Nat) (q : Bool) (cs : List Call) :
    (S a r E k v q cs).pos = a.length := rfl

@[simp]
theorem S_endp (a r : List Nat) (E : Nat) (k v : Option Nat) (q : Bool) (cs : List Call) :
    (S a r E k v q cs).endp = E := rfl

theorem scan_tok (t : List Nat) (ht : t.all tokbyte = true) :
    ∀ (a r : List Nat) (E k : Nat) (v : Option Nat) (cs : List Call) (o : Outcome),
      a.length + t.length ≤ E →
      EvalTo (S (a ++ t) r E (some k) v false cs) o →
      EvalTo (S a (t ++ r) E (some k) v false cs) o := by
  induction t with
  | nil => intro a r E k v cs o _ h; simpa using h
  | cons c t ih =>
    intro a r E k v cs o hE h
    simp only [List.all_cons, Bool.and_eq_true] at ht
    simp only [List.length_cons] at hE
    rw [List.cons_append]
    refine EvalTo.of_step (by simp; omega) (step_S_tok a _ c E k v cs ht.1) ?_
    refine ih ht.2 (a ++ [c]) r E k v cs o (by simp; omega) ?_
    simpa using h

theorem scan_quoted (t : List Nat) (ht : ∀ c ∈ t, c ≠ 125) :
    ∀ (a r : List Nat) (E k : Nat) (v : Option Nat) (cs : List Call) (o : Outcome),
      a.length + t.length ≤ E →
      EvalTo (S (a ++ t) r E (some k) v true cs) o →
      EvalTo (S a (t ++ r) E (some k) v true cs) o := by
  induction t with
  | nil => intro a r E k v cs o _ h; simpa using h
  | cons c t ih =>
    intro a r E k v cs o hE h
    simp only [List.length_cons] at hE
    rw [List.cons_append]
    refine EvalTo.of_step (by simp; omega)
      (step_S_quoted a _ c E k v cs (ht c (List.mem_cons_self _ _))) ?_
    refine ih (fun x hx => ht x (List.mem_cons_of_mem _ hx)) (a ++ [c]) r E k v cs o
      (by simp; omega) ?_
    simpa using h

theorem takeWhile_nonzero (k r : List Nat) (hk : ∀ x ∈ k, x ≠ 0) :
    (k ++ 0 :: r).takeWhile (fun b => b != 0) = k := by
  induction k with
  | nil => simp
  | cons c k ih =>
    have hc : c ≠ 0 := hk c (List.mem_cons_self _ _)
    simp [hc, ih (fun x hx => hk x (List.mem_cons_of_mem _ hx))]

theorem cstr_mid (buf a k r : List Nat) (hk : ∀ x ∈ k, x ≠ 0) (hb : buf = a ++ (k ++ 0 :: r)) :
    cstr buf a.length = k := by
  subst hb
  rw [cstr, List.drop_left]
  exact takeWhile_nonzero k r hk

theorem tokbyte_ne_zero (t : List Nat) (ht : t.all tokbyte = true) : ∀ x ∈ t, x ≠ 0 := by
  intro x hx
  have h := List.all_eq_true.mp ht x hx
  simp only [tokbyte, Bool.and_eq_true, bne_iff_ne, ne_eq] at h
  exact h.1.1.1.1

theorem token_cons {P : Nat → Bool} {t : List Nat} (h : token P t = true) :
    ∃ c t', t = c :: t' ∧ P c = true ∧ t'.all P = true := by
  cases t with
  | nil => simp [token] at h
  | cons c t' =>
    simp only [token, List.isEmpty_cons, Bool.not_false, Bool.true_and, List.all_cons,
      Bool.and_eq_true] at h
    exact ⟨c, t', rfl, h.1, h.2⟩

theorem token_all {P : Nat → Bool} {t : List Nat} (h : token P t = true) : t.all P = true := by
  simp only [token, Bool.and_eq_true] at h
  exact h.2

theorem token_length {P : Nat → Bool} {t : List Nat} (h : token P t = true) : 0 < t.length := by
  obtain ⟨c, t', rfl, _, _⟩ := token_cons h
  simp

theorem apply_option_some (buf : List Nat) (ki : Nat) (k : List Nat) (val : Option Nat)
    (v : Option (List Nat)) (cs : List Call)
    (hk : cstr buf ki = k) (hv : val.map (cstr buf) = v) :
    apply_option buf (some ki) val cs = cs ++ forwarded [(k, v)] := by
  subst hk hv
  by_cases h : strcasecmp (cstr buf ki) dsnKeyword = 0
  · simp [apply_option, forwarded, isDsn, h]
  · simp [apply_option, forwarded, isDsn, h]

theorem forwarded_cons (p : Call) (ps : List Call) :
    forwarded (p :: ps) = forwarded [p] ++ forwarded ps := by
  simp only [forwarded, List.filter_cons, List.filter_nil]
  split <;> simp

theorem scannedPair_length (p : Call) : (scannedPair p).length = (renderPair p).length := by
  obtain ⟨k, v⟩ := p
  cases v <;> simp [scannedPair, renderPair]

theorem run_pair_body (p : Call) (hp : wfPair tokbyte p = true) (a r : List Nat) (E : Nat)
    (cs : List Call) (o : Outcome) (hE : a.length + (renderPair p).length ≤ E)
    (h : EvalTo (S (a ++ scannedPair p) r E (some a.length) (valOf p a.length) false cs) o) :
    EvalTo (S a (renderPair p ++ r) E none none false cs) o := by
  obtain ⟨k, v⟩ := p
  simp only [wfPair, Bool.and_eq_true] at hp
  obtain ⟨c, k', rfl, hc, hk'⟩ := token_cons hp.1
  cases v with
  | none =>
    simp only [renderPair, scannedPair, valOf, Option.map_none', List.length_cons] at h hE ⊢
    rw [List.cons_append]
    refine EvalTo.of_step (by simp; omega) (step_S_key a _ c E none cs hc) ?_
    refine scan_tok k' hk' (a ++ [c]) r E a.length none cs o (by simp; omega) ?_
    simpa using h
  | some v =>
    have hv := hp.2
    simp only at hv
    have hvl := token_length hv
    simp only [renderPair, scannedPair, valOf, Option.map_some', List.length_cons,
      List.length_append] at h hE ⊢
    rw [List.cons_append, List.cons_append, List.append_assoc]
    refine EvalTo.of_step (by simp; omega) (step_S_key a _ c E none cs hc) ?_
    refine scan_tok k' hk' (a ++ [c]) _ E a.length none cs o (by simp; omega) ?_
    refine EvalTo.of_step (by simp; omega) (step_S_eq _ _ E a.length none cs) ?_
    rw [if_pos (by simp; omega)]
    refine scan_tok v (token_all hv) _ r E a.length _ cs o (by simp; omega) ?_
    have e1 : a ++ [c] ++ k' ++ [0] ++ v = a ++ (c :: k' ++ 0 :: v) := by simp
    have e2 : (a ++ [c] ++ k').length + 1 = a.length + (k'.length + 1) + 1 := by
      simp
    rw [e1, e2]
    exact h

theorem pair_calls (p : Call) (hp : wfPair tokbyte p = true) (a r : List Nat)
    (cs : List Call) :
    apply_option (a ++ scannedPair p ++ 0 :: r) (some a.length) (valOf p a.length) cs
      = cs ++ forwarded [p] := by
  obtain ⟨k, v⟩ := p
  simp only [wfPair, Bool.and_eq_true] at hp
  have hk0 := tokbyte_ne_zero k (token_all hp.1)
  cases v with
  | none =>
    refine apply_option_some _ _ _ _ _ _ ?_ rfl
    exact cstr_mid _ a k r hk0 (by simp [scannedPair])
  | some v =>
    have hv0 := tokbyte_ne_zero v (token_all hp.2)
    refine apply_option_some _ _ _ _ _ _ ?_ ?_
    · exact cstr_mid _ a k (v ++ 0 :: r) hk0 (by simp [scannedPair])
    · simp only [valOf, Option.map_some', Option.some.injEq]
      have e : a.length + k.length + 1 = (a ++ k ++ [0]).length := by
        simp [Nat.add_assoc]
      rw [e]
      exact cstr_mid _ (a ++ k ++ [0]) v r hv0 (by simp [scannedPair])

theorem run_pair (p : Call) (hp : wfPair tokbyte p = true) (a r : List Nat) (E : Nat)
    (cs : List Call) (o : Outcome) (hE : a.length + (renderPair p).length ≤ E)
    (h : ∀ a' : List Nat, a'.length = a.length + (renderPair p).length + 1 →
      EvalTo (S a' r E none none false (cs ++ forwarded [p])) o) :
    EvalTo (S a (renderPair p ++ 59 :: r) E none none false cs) o := by
  refine run_pair_body p hp a _ E cs o hE ?_
  refine EvalTo.of_step (by simp [scannedPair_length]; omega) (step_S_semi _ _ E _ _ cs) ?_
  rw [pair_calls p hp a r cs]
  exact h _ (by simp [scannedPair_length, Nat.add_assoc])

theorem run_last (p : Call) (hp : wfPair tokbyte p = true) (a : List Nat) (cs : List Call) :
    EvalTo (S a (renderPair p ++ [0]) (a.length + (renderPair p).length) none none false cs)
      ⟨0, none, cs ++ forwarded [p]⟩ := by
  refine run_pair_body p hp a _ _ cs _ (Nat.le_refl _) ?_
  refine EvalTo.of_step (by simp [scannedPair_length]) (step_S_nul _ _ _ _ _ _ cs) ?_
  have h := EvalTo.of_exit
    (s := S (a ++ scannedPair p ++ [0]) [] (a.length + (renderPair p).length)
      (some a.length) (valOf p a.length) false cs) (by simp [scannedPair_length])
  have e : finish (S (a ++ scannedPair p ++ [0]) [] (a.length + (renderPair p).length)
      (some a.length) (valOf p a.length) false cs) = ⟨0, none, cs ++ forwarded [p]⟩ := by
    have := pair_calls p hp a [] cs
    simp only [finish, S, List.append_nil, List.append_assoc, List.singleton_append] at this ⊢
    rw [this]
  rw [e] at h
  exact h

theorem run_terminated (ps : List Call) (hps : ∀ p ∈ ps, wfPair tokbyte p = true) :
    ∀ (a r : List Nat) (E : Nat) (cs : List Call) (o : Outcome),
      a.length + (renderTerminated ps).length ≤ E →
      (∀ a' : List Nat, a'.length = a.length + (renderTerminated ps).length →
        EvalTo (S a' r E none none false (cs ++ forwarded ps)) o) →
      EvalTo (S a (renderTerminated ps ++ r) E none none false cs) o := by
  induction ps with
  | nil =>
    intro a r E cs o _ h
    simpa [renderTerminated, forwarded] using h a (by simp [renderTerminated])
  | cons p ps ih =>
    intro a r E cs o hE h
    simp only [renderTerminated, List.length_append, List.length_cons] at hE h
    simp only [renderTerminated, List.append_assoc, List.cons_append]
    refine run_pair p (hps p (List.mem_cons_self _ _)) a _ E cs o (by omega) ?_
    intro a' ha'
    refine ih (fun q hq => hps q (List.mem_cons_of_mem _ hq)) a' r E _ o (by omega) ?_
    intro a'' ha''
    have h' := h a'' (by omega)
    rw [forwarded_cons p ps, ← List.append_assoc] at h'
    exact h'

theorem run_joined (ps : List Call) (hps : ∀ p ∈ ps, wfPair tokbyte p = true) :
    ∀ (a : List Nat) (cs : List Call),
      EvalTo (S a (renderJoined ps ++ [0]) (a.length + (renderJoined ps).length)
        none none false cs) ⟨0, none, cs ++ forwarded ps⟩ := by
  induction ps with
  | nil =>
    intro a cs
    simp only [renderJoined, List.nil_append, List.length_nil, Nat.add_zero, forwarded,
      List.filter_nil, List.append_nil]
    refine EvalTo.of_step (by simp) (step_S_nul _ _ _ _ _ _ cs) ?_
    exact EvalTo.of_exit (s := S (a ++ [0]) [] a.length none none false cs) (by simp)
  | cons p ps ih =>
    intro a cs
    cases ps with
    | nil => exact run_last p (hps p (List.mem_cons_self _ _)) a cs
    | cons q ps =>
      simp only [renderJoined, List.append_assoc, List.cons_append, List.length_append,
        List.length_cons]
      refine run_pair p (hps p (List.mem_cons_self _ _)) a _ _ cs _ (by omega) ?_
      intro a' ha'
      have h := ih (fun x hx => hps x (List.mem_cons_of_mem _ hx)) a' (cs ++ forwarded [p])
      rw [forwarded_cons p (q :: ps), ← List.append_assoc]
      have e : a.length + ((renderPair p).length + ((renderJoined (q :: ps)).length + 1))
          = a'.length + (renderJoined (q :: ps)).length := by omega
      rw [e]
      exact h

theorem init_eq_S (s : List Nat) : init s = S [] (s ++ [0]) s.length none none false [] := rfl

theorem run_sentinel (a : List Nat) (E : Nat) (cs : List Call) (h : a.length = E) :
    EvalTo (S a [0] E none none false cs) ⟨0, none, cs⟩ := by
  refine EvalTo.of_step (by simp; omega) (step_S_nul _ _ _ _ _ _ cs) ?_
  exact EvalTo.of_exit (s := S (a ++ [0]) [] E none none false cs) (by simp; omega)

theorem plain_tokbyte (c : Nat) (h : plain c = true) : tokbyte c = true := by
  simp only [plain, Bool.and_eq_true] at h
  exact h.1

theorem token_mono {P Q : Nat → Bool} (hPQ : ∀ c, P c = true → Q c = true) {t : List Nat}
    (h : token P t = true) : token Q t = true := by
  simp only [token, Bool.and_eq_true, List.all_eq_true] at h ⊢
  exact ⟨h.1, fun x hx => hPQ x (h.2 x hx)⟩

theorem wfPair_mono {P Q : Nat → Bool} (hPQ : ∀ c, P c = true → Q c = true) {p : Call}
    (h : wfPair P p = true) : wfPair Q p = true := by
  obtain ⟨k, v⟩ := p
  cases v with
  | none =>
    simp only [wfPair, Bool.and_true] at h ⊢
    exact token_mono hPQ h
  | some v =>
    simp only [wfPair, Bool.and_eq_true] at h ⊢
    exact ⟨token_mono hPQ h.1, token_mono hPQ h.2⟩

theorem run_render (ps : List Call) (trailing : Bool)
    (hps : ∀ p ∈ ps, wfPair tokbyte p = true) (a : List Nat) (cs : List Call) :
    EvalTo (S a (render ps trailing ++ [0]) (a.length + (render ps trailing).length)
      none none false cs) ⟨0, none, cs ++ forwarded ps⟩ := by
  cases trailing with
  | true =>
    simp only [render, if_true]
    refine run_terminated ps hps a [0] _ cs _ (Nat.le_refl _) ?_
    intro a' ha'
    exact run_sentinel a' _ _ ha'
  | false =>
    simp only [render, Bool.false_eq_true, if_false]
    exact run_joined ps hps a cs

/-- The parse of a well-formed input whose keys and values hold bytes of the class
`tokbyte`: the pairs whose key is not `dsn` are applied, in order. -/
theorem parse_render (ps : List Call) (trailing : Bool)
    (hps : ∀ p ∈ ps, wfPair tokbyte p = true) :
    ma_parse_dsn (render ps trailing) ((render ps trailing).length : Int)
      = some ⟨0, none, forwarded ps⟩ := by
  apply ma_parse_dsn_of_evalTo
  rw [init_eq_S]
  have h := run_render ps trailing hps [] []
  simpa using h

theorem skip_blank (t : List Nat) (ht : ∀ x ∈ t, isspace x = true ∨ x = 0) :
    ∀ (a r : List Nat) (E : Nat) (cs : List Call) (o : Outcome),
      a.length + t.length ≤ E →
      EvalTo (S (a ++ t) r E none none false cs) o →
      EvalTo (S a (t ++ r) E none none false cs) o := by
  induction t with
  | nil => intro a r E cs o _ h; simpa using h
  | cons c t ih =>
    intro a r E cs o hE h
    simp only [List.length_cons] at hE
    rw [List.cons_append]
    have hstep : step (S a (c :: (t ++ r)) E none none false cs)
        = .next (S (a ++ [c]) (t ++ r) E none none false cs) := by
      rcases ht c (List.mem_cons_self _ _) with hc | hc
      · exact step_S_space a _ c E none none cs hc
      · subst hc; exact step_S_nul a _ E none none false cs
    refine EvalTo.of_step (by simp; omega) hstep ?_
    refine ih (fun x hx => ht x (List.mem_cons_of_mem _ hx)) (a ++ [c]) r E cs o
      (by simp; omega) ?_
    simpa using h

theorem run_quoted_body (k c r : List Nat) (x : Nat) (hk : token tokbyte k = true)
    (hc : c ≠ []) (hc' : ∀ b ∈ c, b ≠ 125) (hx : x ≠ 125) (a : List Nat) (E : Nat)
    (cs : List Call) (o : Outcome) (hE : a.length + k.length + 2 + c.length + 1 ≤ E)
    (h : EvalTo (S (a ++ k ++ 0 :: 123 :: c ++ [0]) (x :: r) E (some a.length)
      (some (a.length + k.length + 2)) false cs) o) :
    EvalTo (S a (k ++ 61 :: 123 :: c ++ 125 :: x :: r) E none none false cs) o := by
  obtain ⟨b, k', rfl, hb, hk'⟩ := token_cons hk
  obtain ⟨y, c', rfl⟩ := List.exists_cons_of_ne_nil hc
  simp only [List.length_cons] at hE h
  simp only [List.cons_append, List.append_assoc]
  refine EvalTo.of_step (by simp; omega) (step_S_key a _ b E none cs hb) ?_
  refine scan_tok k' hk' (a ++ [b]) _ E a.length none cs o (by simp; omega) ?_
  refine EvalTo.of_step (by simp; omega) (step_S_eq _ _ E a.length none cs) ?_
  rw [if_pos (by simp; omega)]
  refine EvalTo.of_step (by simp; omega)
    (step_S_open _ _ y E a.length _ cs (by simp; omega)) ?_
  refine scan_quoted c' (fun z hz => hc' z (List.mem_cons_of_mem _ hz)) _ _ E a.length _ cs o
    (by simp; omega) ?_
  refine EvalTo.of_step (by simp; omega) (step_S_close _ _ x E a.length _ cs hx) ?_
  have e1 : a ++ [b] ++ k' ++ [0] ++ [123, y] ++ c' ++ [0]
      = a ++ (b :: k') ++ 0 :: 123 :: (y :: c') ++ [0] := by simp
  have e2 : (a ++ [b] ++ k' ++ [0]).length + 1 = a.length + (k'.length + 1) + 2 := by
    simp only [List.length_append, List.length_cons, List.length_nil]
    omega
  rw [e1, e2]
  exact h

theorem quoted_calls (k c r : List Nat) (hk : ∀ x ∈ k, x ≠ 0) (hc : ∀ x ∈ c, x ≠ 0)
    (a : List Nat) (cs : List Call) :
    apply_option (a ++ k ++ 0 :: 123 :: c ++ 0 :: r) (some a.length)
      (some (a.length + k.length + 2)) cs = cs ++ forwarded [(k, some c)] := by
  refine apply_option_some _ _ _ _ _ _ ?_ ?_
  · exact cstr_mid _ a k (123 :: c ++ 0 :: r) hk (by simp)
  · simp only [Option.map_some', Option.some.injEq]
    have e : a.length + k.length + 2 = (a ++ k ++ [0, 123]).length := by
      simp [Nat.add_assoc]
    rw [e]
    exact cstr_mid _ (a ++ k ++ [0, 123]) c r hc (by simp)

theorem run_quoted_last (k c : List Nat) (hk : token tokbyte k = true)
    (hc : c ≠ []) (hc' : ∀ b ∈ c, b ≠ 0 ∧ b ≠ 125) (a : List Nat) (cs : List Call) :
    EvalTo (S a (k ++ 61 :: 123 :: c ++ 125 :: [0]) (a.length + k.length + 2 + c.length + 1)
      none none false cs) ⟨0, none, cs ++ forwarded [(k, some c)]⟩ := by
  refine run_quoted_body k c [] 0 hk hc (fun b hb => (hc' b hb).2) (by decide) a _ cs _
    (Nat.le_refl _) ?_
  refine EvalTo.of_step (by simp; omega) (step_S_nul _ _ _ _ _ _ cs) ?_
  have h := EvalTo.of_exit
    (s := S (a ++ k ++ 0 :: 123 :: c ++ [0] ++ [0]) [] (a.length + k.length + 2 + c.length + 1)
      (some a.length) (some (a.length + k.length + 2)) false cs) (by simp; omega)
  have e : finish (S (a ++ k ++ 0 :: 123 :: c ++ [0] ++ [0]) []
      (a.length + k.length + 2 + c.length + 1)
      (some a.length) (some (a.length + k.length + 2)) false cs)
      = ⟨0, none, cs ++ forwarded [(k, some c)]⟩ := by
    have := quoted_calls k c [0] (tokbyte_ne_zero k (token_all hk)) (fun b hb => (hc' b hb).1)
      a cs
    simp only [finish, S, List.append_nil, List.append_assoc, List.singleton_append,
      List.cons_append, List.nil_append] at this ⊢
    rw [this]
  rw [e] at h
  exact h

theorem run_quoted_pair (k c r : List Nat) (hk : token tokbyte k = true)
    (hc : c ≠ []) (hc' : ∀ b ∈ c, b ≠ 0 ∧ b ≠ 125) (a : List Nat) (E : Nat) (cs : List Call)
    (o : Outcome) (hE : a.length + k.length + 2 + c.length + 1 ≤ E)
    (h : ∀ a' : List Nat, a'.length = a.length + k.length + c.length + 4 →
      EvalTo (S a' r E none none false (cs ++ forwarded [(k, some c)])) o) :
    EvalTo (S a (k ++ 61 :: 123 :: c ++ 125 :: 59 :: r) E none none false cs) o := by
  refine run_quoted_body k c r 59 hk hc (fun b hb => (hc' b hb).2) (by decide) a E cs o hE ?_
  refine EvalTo.of_step (by simp; omega) (step_S_semi _ _ E _ _ cs) ?_
  have := quoted_calls k c (0 :: r) (tokbyte_ne_zero k (token_all hk))
    (fun b hb => (hc' b hb).1) a cs
  simp only [List.append_assoc, List.singleton_append, List.cons_append,
    List.nil_append] at this ⊢
  rw [this]
  exact h _ (by simp; omega)

theorem tolower_ne_zero (d : Nat) (h : d ≠ 0) : tolower d ≠ 0 := by
  unfold tolower
  split <;> omega

theorem isDsn_of_eqIgnoreCase (k : List Nat) (h : eqIgnoreCase k dsnKeyword = true) :
    isDsn k = true := by
  simp only [eqIgnoreCase, beq_iff_eq] at h
  rcases k with _ | ⟨a, _ | ⟨b, _ | ⟨c, _ | ⟨d, t⟩⟩⟩⟩ <;>
    simp [dsnKeyword] at h
  obtain ⟨ha, hb, hc⟩ := h
  have e : tolower 100 = 100 ∧ tolower 115 = 115 ∧ tolower 110 = 110 := by decide
  simp [isDsn, strcasecmp, dsnKeyword, ha, hb, hc, e]

theorem isDsn_eq (k : List Nat) (h0 : ∀ x ∈ k, x ≠ 0) :
    isDsn k = eqIgnoreCase k dsnKeyword := by
  cases h : eqIgnoreCase k dsnKeyword with
  | true => exact isDsn_of_eqIgnoreCase k h
  | false =>
    have e : tolower 100 = 100 ∧ tolower 115 = 115 ∧ tolower 110 = 110 := by decide
    simp only [eqIgnoreCase, beq_eq_false_iff_ne, ne_eq] at h
    simp only [isDsn, beq_eq_false_iff_ne, ne_eq]
    rcases k with _ | ⟨a, k⟩
    · simp [strcasecmp, dsnKeyword, e]
    by_cases ha : tolower a = 100
    swap
    · simp [strcasecmp, dsnKeyword, e, ha]; omega
    rcases k with _ | ⟨b, k⟩
    · simp [strcasecmp, dsnKeyword, e, ha]
    by_cases hb : tolower b = 115
    swap
    · simp [strcasecmp, dsnKeyword, e, ha, hb]; omega
    rcases k with _ | ⟨c, k⟩
    · simp [strcasecmp, dsnKeyword, e, ha, hb]
    by_cases hc : tolower c = 110
    swap
    · simp [strcasecmp, dsnKeyword, e, ha, hb, hc]; omega
    rcases k with _ | ⟨d, k⟩
    · simp [dsnKeyword, ha, hb, hc, e] at h
    · have hd : d ≠ 0 := h0 d (by simp)
      have := tolower_ne_zero d hd
      simp [strcasecmp, dsnKeyword, e, ha, hb, hc]
      omega

theorem wfPair_key_ne_zero {p : Call} (h : wfPair tokbyte p = true) : ∀ x ∈ p.1, x ≠ 0 := by
  simp only [wfPair, Bool.and_eq_true] at h
  exact tokbyte_ne_zero _ (token_all h.1)

theorem forwarded_eq (ps : List Call) (hps : ∀ p ∈ ps, wfPair tokbyte p = true) :
    forwarded ps = ps.filter (fun p => !eqIgnoreCase p.1 dsnKeyword) := by
  unfold forwarded
  apply List.filter_congr
  intro p hp
  rw [isDsn_eq p.1 (wfPair_key_ne_zero (hps p hp))]

theorem forwarded_single (k : List Nat) (v : Option (List Nat)) (h0 : ∀ x ∈ k, x ≠ 0)
    (hd : eqIgnoreCase k dsnKeyword = false) : forwarded [(k, v)] = [(k, v)] := by
  simp [forwarded, isDsn_eq k h0, hd]

/-! ## The calls never carry the key `dsn` -/

theorem apply_option_not_dsn (buf : List Nat) (key val : Option Nat) (cs : List Call)
    (h : ∀ c ∈ cs, isDsn c.1 = false) :
    ∀ c ∈ apply_option buf key val cs, isDsn c.1 = false := by
  intro c hc
  cases key with
  | none => exact h c hc
  | some k =>
    simp only [apply_option] at hc
    split at hc
    · rename_i hne
      rcases List.mem_append.mp hc with hc | hc
      · exact h c hc
      · simp only [List.mem_singleton] at hc
        subst hc
        simpa [isDsn] using hne
    · exact h c hc

theorem step_calls (s s' : State) (hs : step s = .next s') :
    s'.calls = s.calls ∨
      s'.calls = apply_option (s.buf.set s.pos 0) s.key s.val s.calls := by
  simp only [step] at hs
  repeat' split at hs
  all_goals first
    | (cases hs; done)
    | (simp only [after_switch] at hs; injection hs with hs; subst hs; exact Or.inl rfl)
    | (injection hs with hs; subst hs; exact Or.inl rfl)
    | (injection hs with hs; subst hs; exact Or.inr rfl)

theorem run_not_dsn : ∀ (fuel : Nat) (s : State) (o : Outcome), run fuel s = some o →
    (∀ c ∈ s.calls, isDsn c.1 = false) → ∀ c ∈ o.calls, isDsn c.1 = false := by
  intro fuel
  induction fuel with
  | zero => intro s o h; simp [run] at h
  | succ n ih =>
    intro s o h hs
    unfold run at h
    by_cases hp : s.pos ≤ s.endp
    · rw [if_pos hp] at h
      cases hst : step s with
      | error =>
        rw [hst] at h
        injection h with h
        subst h
        exact hs
      | next s' =>
        rw [hst] at h
        refine ih s' o h ?_
        rcases step_calls s s' hst with e | e
        · rw [e]; exact hs
        · rw [e]; exact apply_option_not_dsn _ _ _ _ hs
    · rw [if_neg hp] at h
      injection h with h
      subst h
      exact apply_option_not_dsn _ _ _ _ hs

/-! ## The length of a zero-terminated input -/

theorem strlen_eq_firstZero (b : List Nat) (h : 0 ∈ b) : strlen b = some (firstZero b) := by
  induction b with
  | nil => simp at h
  | cons x xs ih =>
    by_cases hx : x = 0
    · subst hx
      simp [strlen, firstZero, List.indexOf_cons]
    · have hmem : 0 ∈ xs := by
        rcases List.mem_cons.mp h with h | h
        · exact absurd h.symm hx
        · exact h
      have := ih hmem
      simp only [firstZero] at this
      simp [strlen, firstZero, List.indexOf_cons, hx, this]

theorem strlen_append_zero (s rest : List Nat) (h : ∀ b ∈ s, b ≠ 0) :
    strlen (s ++ 0 :: rest) = some s.length := by
  induction s with
  | nil => simp [strlen]
  | cons x xs ih =>
    have hx : x ≠ 0 := h x (List.mem_cons_self _ _)
    simp [strlen, hx, ih (fun b hb => h b (List.mem_cons_of_mem _ hb))]

/-- A zero-terminated input without inner zero byte, passed with `len = -1`, is parsed
as the same bytes passed with their length. -/
theorem ma_parse_dsn_terminated (s rest : List Nat) (h : ∀ b ∈ s, b ≠ 0) :
    ma_parse_dsn (s ++ 0 :: rest) (-1) = ma_parse_dsn s (s.length : Int) := by
  rw [ma_parse_dsn_length]
  simp only [ma_parse_dsn, if_true, strlen_append_zero s rest h, List.take_left]

theorem firstZero_le_length (b : List Nat) : firstZero b ≤ b.length :=
  List.indexOf_le_length

/-- C1: for every list of pairs whose keys are non-empty strings of plain bytes and
whose values are absent or non-empty strings of plain bytes, the input that writes them
as `k` or `k=v` joined by `;`, with or without a trailing `;` (for the empty list both
forms are the empty input), makes `ma_parse_dsn` return 0 with no error recorded, and the
applier calls are, in order, exactly the pairs whose key is not `dsn` ignoring case, a
missing value being passed as a null pointer. -/
theorem C1_wellformed_pairs_applied (ps : List Call) (trailing : Bool)
    (hps : ∀ p ∈ ps, wfPair plain p = true) :
    ma_parse_dsn (render ps trailing) ((render ps trailing).length : Int)
      = some ⟨0, none, ps.filter (fun p => !eqIgnoreCase p.1 dsnKeyword)⟩ := by
  have h := fun p hp => wfPair_mono plain_tokbyte (hps p hp)
  rw [← forwarded_eq ps h]
  exact parse_render ps trailing h

/-- C1, on the two inputs of the specification: `host=localhost;port=3306` and
`key1=val1;key2`. -/
theorem C1_wellformed_pairs_applied_witness :
    ma_parse_dsn (ascii "host=localhost;port=3306") 24
      = some ⟨0, none, [(ascii "host", some (ascii "localhost")),
          (ascii "port", some (ascii "3306"))]⟩ ∧
    ma_parse_dsn (ascii "key1=val1;key2") 14
      = some ⟨0, none, [(ascii "key1", some (ascii "val1")), (ascii "key2", none)]⟩ :=
  ⟨C1_wellformed_pairs_applied
      [(ascii "host", some (ascii "localhost")), (ascii "port", some (ascii "3306"))] false
      (by decide),
   C1_wellformed_pairs_applied
      [(ascii "key1", some (ascii "val1")), (ascii "key2", none)] false (by decide)⟩

/-- C2, the code on the input of the specification: `opt={a;b=c}}d}` is the key `opt`
with the value `a;b=c}d` written with its `}` doubled, and `ma_parse_dsn` applies
`opt` with the value `a;b=c}d}}`: the collapse moves one byte too few and steps over
the byte after the literal `}`, so the closing `}` and its stale copy end up in the
value. -/
theorem C2_brace_doubling_code :
    ascii "opt" ++ [61, 123] ++ doubleBraces (ascii "a;b=c\x7dd") ++ [125]
      = ascii "opt=\x7ba;b=c\x7d\x7dd\x7d" ∧
    ma_parse_dsn (ascii "opt=\x7ba;b=c\x7d\x7dd\x7d") 14
      = some ⟨0, none, [(ascii "opt", some (ascii "a;b=c\x7dd\x7d\x7d"))]⟩ := by
  decide

/-- C3: for every non-empty plain key `k` other than `dsn` and every non-empty content
`c` without `}` and NUL (it may hold `;`, `=`, `{` and whitespace), `ma_parse_dsn` on
`k={c}` returns 0 and applies exactly `(k, c)`; and on `k={c};r`, where `r` is a
well-formed brace-free input, it returns 0 and applies `(k, c)` followed by exactly the
calls that `r` alone gives (its pairs whose key is not `dsn`). -/
theorem C3_quoted_value_literal (k c : List Nat) (ps : List Call) (trailing : Bool)
    (hk : token plain k = true) (hd : eqIgnoreCase k dsnKeyword = false)
    (hc : c ≠ []) (hc' : ∀ b ∈ c, b ≠ 0 ∧ b ≠ 125)
    (hps : ∀ p ∈ ps, wfPair plain p = true) :
    ma_parse_dsn (k ++ 61 :: 123 :: c ++ [125]) ((k ++ 61 :: 123 :: c ++ [125]).length : Int)
      = some ⟨0, none, [(k, some c)]⟩ ∧
    ∃ calls : List Call,
      ma_parse_dsn (render ps trailing) ((render ps trailing).length : Int)
        = some ⟨0, none, calls⟩ ∧
      calls = ps.filter (fun p => !eqIgnoreCase p.1 dsnKeyword) ∧
      ma_parse_dsn (k ++ 61 :: 123 :: c ++ 125 :: 59 :: render ps trailing)
          ((k ++ 61 :: 123 :: c ++ 125 :: 59 :: render ps trailing).length : Int)
        = some ⟨0, none, (k, some c) :: calls⟩ := by
  have hk' : token tokbyte k = true := token_mono plain_tokbyte hk
  have hk0 := tokbyte_ne_zero k (token_all hk')
  have hps' := fun p hp => wfPair_mono plain_tokbyte (hps p hp)
  have hf : forwarded [(k, some c)] = [(k, some c)] := forwarded_single k _ hk0 hd
  refine ⟨?_, forwarded ps, parse_render ps trailing hps', forwarded_eq ps hps', ?_⟩
  · apply ma_parse_dsn_of_evalTo
    rw [init_eq_S]
    have h := run_quoted_last k c hk' hc hc' [] []
    rw [hf] at h
    have e1 : (k ++ 61 :: 123 :: c ++ [125]) ++ [0] = k ++ 61 :: 123 :: c ++ 125 :: [0] := by
      simp
    have e2 : (k ++ 61 :: 123 :: c ++ [125]).length
        = ([] : List Nat).length + k.length + 2 + c.length + 1 := by
      simp; omega
    rw [e1, e2]
    exact h
  · apply ma_parse_dsn_of_evalTo
    rw [init_eq_S]
    have e1 : (k ++ 61 :: 123 :: c ++ 125 :: 59 :: render ps trailing) ++ [0]
        = k ++ 61 :: 123 :: c ++ 125 :: 59 :: (render ps trailing ++ [0]) := by
      simp
    rw [e1]
    refine run_quoted_pair k c _ hk' hc hc' [] _ [] _ (by simp; omega) ?_
    intro a' ha'
    have h := run_render ps trailing hps' a' (forwarded [(k, some c)])
    have e2 : (k ++ 61 :: 123 :: c ++ 125 :: 59 :: render ps trailing).length
        = a'.length + (render ps trailing).length := by
      simp at ha' ⊢; omega
    rw [e2]
    simpa [hf] using h

/-- C3 on `k={a b;c=d{e}`: the value keeps the blank, `;`, `=` and `{`; and on
`k={a;b};x=y`. -/
theorem C3_quoted_value_literal_witness :
    ma_parse_dsn (ascii "k=\x7ba b;c=d\x7be\x7d") 13
      = some ⟨0, none, [(ascii "k", some (ascii "a b;c=d\x7be"))]⟩ ∧
    ∃ calls : List Call,
      ma_parse_dsn (ascii "x=y") 3 = some ⟨0, none, calls⟩ ∧
      calls = [(ascii "x", some (ascii "y"))] ∧
      ma_parse_dsn (ascii "k=\x7ba b;c=d\x7be\x7d;x=y") 17
        = some ⟨0, none, (ascii "k", some (ascii "a b;c=d\x7be")) :: calls⟩ :=
  C3_quoted_value_literal (ascii "k") (ascii "a b;c=d\x7be") [(ascii "x", some (ascii "y"))]
    false (by decide) (by decide) (by decide) (by decide) (by decide)

/-- C4: for every input, of any bytes and any length, `ma_parse_dsn` returns, and no
call it made to the applier has a key equal to `dsn` ignoring ASCII case, be the pair
ended by `;` or flushed at the end of the input, and also when the parse fails.  On
`dsn=other;host=localhost` only `(host, localhost)` is applied. -/
theorem C4_dsn_never_forwarded (input : List Nat) :
    (∃ o : Outcome, ma_parse_dsn input (input.length : Int) = some o ∧
      ∀ c ∈ o.calls, eqIgnoreCase c.1 dsnKeyword = false) ∧
    ma_parse_dsn (ascii "dsn=other;host=localhost") 24
      = some ⟨0, none, [(ascii "host", some (ascii "localhost"))]⟩ := by
  refine ⟨?_, by decide⟩
  obtain ⟨o, ho⟩ := run_total (input.length + 2) (init input) (by simp [init])
  refine ⟨o, ?_, ?_⟩
  · rw [ma_parse_dsn_length]; exact ho
  · intro c hc
    have h := run_not_dsn _ _ _ ho (by simp [init]) c hc
    cases he : eqIgnoreCase c.1 dsnKeyword with
    | false => rfl
    | true => rw [isDsn_of_eqIgnoreCase c.1 he] at h; exact absurd h (by decide)

/-- C5, refuted as stated: on `key=` the applier receives `key` with a null value, not
with the empty string. -/
theorem C5_trailing_eq_counterexample :
    ma_parse_dsn (ascii "key=") 4 = some ⟨0, none, [(ascii "key", none)]⟩ ∧
    ma_parse_dsn (ascii "key=") 4 ≠ some ⟨0, none, [(ascii "key", some [])]⟩ := by
  decide

/-- C5, amended: for every non-empty plain key `k` other than `dsn`, `ma_parse_dsn` on
`k=` (no terminating `;`) returns 0 and applies exactly `(k, NULL)`: the value is
missing, because `val` is only set when a byte follows the `=`. -/
theorem C5_trailing_eq_null_value (k : List Nat) (hk : token plain k = true)
    (hd : eqIgnoreCase k dsnKeyword = false) :
    ma_parse_dsn (k ++ [61]) ((k ++ [61]).length : Int) = some ⟨0, none, [(k, none)]⟩ := by
  have hk' : token tokbyte k = true := token_mono plain_tokbyte hk
  have hk0 := tokbyte_ne_zero k (token_all hk')
  apply ma_parse_dsn_of_evalTo
  rw [init_eq_S]
  obtain ⟨b, k', rfl, hb, hkt⟩ := token_cons hk'
  simp only [List.cons_append, List.append_assoc, List.length_cons, List.length_append,
    List.length_nil]
  refine EvalTo.of_step (by simp) (step_S_key [] _ b _ none [] hb) ?_
  refine scan_tok k' hkt ([] ++ [b]) _ _ _ none [] _ (by simp; omega) ?_
  refine EvalTo.of_step (by simp) (step_S_eq _ _ _ _ none []) ?_
  rw [if_neg (by simp)]
  refine EvalTo.of_step (by simp) (step_S_nul _ _ _ _ _ _ []) ?_
  have h := EvalTo.of_exit
    (s := S ([] ++ [b] ++ k' ++ [0] ++ [0]) [] (k'.length + 1 + (0 + 1))
      (some ([] : List Nat).length) none false []) (by simp)
  have e : finish (S ([] ++ [b] ++ k' ++ [0] ++ [0]) [] (k'.length + 1 + (0 + 1))
      (some ([] : List Nat).length) none false []) = ⟨0, none, [(b :: k', none)]⟩ := by
    have := apply_option_some ([] ++ [b] ++ k' ++ [0] ++ [0] ++ []) ([] : List Nat).length
      (b :: k') none none [] (cstr_mid _ [] (b :: k') [0] hk0 (by simp)) rfl
    rw [forwarded_single _ _ hk0 hd] at this
    simp only [finish, S]
    rw [this]
    rfl
  rw [e] at h
  exact h

/-- C5 (amended) on `key=`. -/
theorem C5_trailing_eq_null_value_witness :
    ma_parse_dsn (ascii "key=") 4 = some ⟨0, none, [(ascii "key", none)]⟩ :=
  C5_trailing_eq_null_value (ascii "key") (by decide) (by decide)

/-- C6: for every input whose first byte that is neither ASCII whitespace nor NUL is
`=`, `;` or `{`, `ma_parse_dsn` returns 1, records the zero-based index of that byte as
the error offset and makes no call to the applier. -/
theorem C6_error_offset (pre rest : List Nat) (b : Nat)
    (hpre : ∀ x ∈ pre, isspace x = true ∨ x = 0) (hb : b = 61 ∨ b = 59 ∨ b = 123) :
    ma_parse_dsn (pre ++ b :: rest) ((pre ++ b :: rest).length : Int)
      = some ⟨1, some pre.length, []⟩ := by
  apply ma_parse_dsn_of_evalTo
  rw [init_eq_S]
  simp only [List.append_assoc, List.cons_append]
  refine skip_blank pre hpre [] _ _ [] _ (by simp) ?_
  exact EvalTo.of_error (s := S ([] ++ pre) (b :: (rest ++ [0])) _ none none false [])
    (by simp) (step_S_err _ _ b _ none [] hb)

/-- C6 on `=value` (offset 0) and on ` \t{x` (offset 2). -/
theorem C6_error_offset_witness :
    ma_parse_dsn (ascii "=value") 6 = some ⟨1, some 0, []⟩ ∧
    ma_parse_dsn (ascii " \t\x7bx") 4 = some ⟨1, some 2, []⟩ :=
  ⟨C6_error_offset [] (ascii "value") 61 (by decide) (by decide),
   C6_error_offset (ascii " \t") (ascii "x") 123 (by decide) (by decide)⟩

/-- C7: for every well-formed brace-free input `p` whose pairs all end with `;` and
every suffix that starts with `=`, `;` or `{`, `ma_parse_dsn` on `p` followed by the
suffix returns 1 with the length of `p` as error offset, and the calls made before the
error are exactly the calls made when parsing `p` alone, in the same order. -/
theorem C7_no_rollback (ps : List Call) (b : Nat) (rest : List Nat)
    (hps : ∀ p ∈ ps, wfPair plain p = true) (hb : b = 61 ∨ b = 59 ∨ b = 123) :
    ∃ calls : List Call,
      ma_parse_dsn (renderTerminated ps) ((renderTerminated ps).length : Int)
        = some ⟨0, none, calls⟩ ∧
      ma_parse_dsn (renderTerminated ps ++ b :: rest)
          ((renderTerminated ps ++ b :: rest).length : Int)
        = some ⟨1, some (renderTerminated ps).length, calls⟩ := by
  have hps' := fun p hp => wfPair_mono plain_tokbyte (hps p hp)
  refine ⟨forwarded ps, parse_render ps true hps', ?_⟩
  apply ma_parse_dsn_of_evalTo
  rw [init_eq_S]
  simp only [List.append_assoc, List.cons_append]
  refine run_terminated ps hps' [] _ _ [] _ (by simp) ?_
  intro a' ha'
  have h := EvalTo.of_error (s := S a' (b :: (rest ++ [0]))
    ((renderTerminated ps ++ b :: rest).length) none none false ([] ++ forwarded ps))
    (by simp at ha' ⊢; omega) (step_S_err _ _ b _ none _ hb)
  simp only [List.length_nil, Nat.zero_add] at ha'
  simpa [fail, ha'] using h

/-- C7 on `host=localhost;=x`: `(host, localhost)` stays applied and the error offset
is 15. -/
theorem C7_no_rollback_witness :
    ∃ calls : List Call,
      ma_parse_dsn (ascii "host=localhost;") 15 = some ⟨0, none, calls⟩ ∧
      ma_parse_dsn (ascii "host=localhost;=x") 17 = some ⟨1, some 15, calls⟩ :=
  C7_no_rollback [(ascii "host", some (ascii "localhost"))] 61 (ascii "x")
    (by decide) (by decide)

/-- C8, the code on the input of the specification: without its whitespace
`host = localhost` is `host=localhost`, which applies `(host, localhost)`; on
`host = localhost` itself `ma_parse_dsn` applies the key `host ` and the value
` localhost`: the scan steps over a blank but leaves it in the buffer, inside the key
or the value it occurs in. -/
theorem C8_whitespace_code :
    stripSpace (ascii "host = localhost") = ascii "host=localhost" ∧
    ma_parse_dsn (ascii "host=localhost") 14
      = some ⟨0, none, [(ascii "host", some (ascii "localhost"))]⟩ ∧
    ma_parse_dsn (ascii "host = localhost") 16
      = some ⟨0, none, [(ascii "host ", some (ascii " localhost"))]⟩ := by
  decide

/-- C9: for every byte sequence that contains a zero byte, `ma_parse_dsn` called with
`len = -1` returns, and so does the call with `len` equal to the index of the first
zero byte, with the same return code, the same recorded error offset and the same
sequence of applier calls. -/
theorem C9_absent_length (b : List Nat) (h : 0 ∈ b) :
    ∃ o : Outcome, ma_parse_dsn b (-1) = some o ∧
      ma_parse_dsn b (firstZero b : Int) = some o := by
  obtain ⟨o, ho⟩ := run_total (firstZero b + 2) (init (b.take (firstZero b)))
    (by simp [init])
  have hne : ((firstZero b : Nat) : Int) = -1 ↔ False := by
    constructor
    · intro h; omega
    · intro h; exact h.elim
  refine ⟨o, ?_, ?_⟩
  · simp only [ma_parse_dsn, if_true, strlen_eq_firstZero b h]
    exact ho
  · simp only [ma_parse_dsn, hne, if_false, Int.toNat_ofNat, Int.ofNat_zero_le, true_and,
      firstZero_le_length b, if_true]
    exact ho

/-- C9 on the bytes `a=b`, NUL, `c=d`: both calls apply `(a, b)` only. -/
theorem C9_absent_length_witness :
    ∃ o : Outcome, ma_parse_dsn (ascii "a=b\x00c=d") (-1) = some o ∧
      ma_parse_dsn (ascii "a=b\x00c=d") 3 = some o :=
  C9_absent_length (ascii "a=b\x00c=d") (by decide)

/-- C10, refuted as stated: `dsn=b}` holds no `{` and is well-formed, its key and value
being non-empty strings without NUL, whitespace, `;` and `=`, yet its pair is not
applied: `ma_parse_dsn` returns 0 and makes no call. -/
theorem C10_closing_brace_counterexample :
    (∀ p ∈ [(ascii "dsn", some (ascii "b\x7d"))], wfPair tokbyte p = true) ∧
    render [(ascii "dsn", some (ascii "b\x7d"))] false = ascii "dsn=b\x7d" ∧
    ma_parse_dsn (ascii "dsn=b\x7d") 6 = some ⟨0, none, []⟩ ∧
    ma_parse_dsn (ascii "dsn=b\x7d") 6
      ≠ some ⟨0, none, [(ascii "dsn", some (ascii "b\x7d"))]⟩ := by
  decide

/-- C10, amended: for every input without `{` that is well-formed (pairs `k` or `k=v`
joined by `;`, keys and values non-empty strings of bytes that are not NUL, whitespace,
`;` or `=`, so that they may hold `}`), `ma_parse_dsn` returns 0 and applies, in order,
the pairs whose key is not `dsn` ignoring case, every `}` kept literally in the key or
value it occurs in. -/
theorem C10_closing_brace_inert (ps : List Call) (trailing : Bool)
    (hps : ∀ p ∈ ps, wfPair tokbyte p = true) :
    ma_parse_dsn (render ps trailing) ((render ps trailing).length : Int)
      = some ⟨0, none, ps.filter (fun p => !eqIgnoreCase p.1 dsnKeyword)⟩ := by
  rw [← forwarded_eq ps hps]
  exact parse_render ps trailing hps

/-- C10 (amended) on `a}=b}` and on `}x;k=}}`. -/
theorem C10_closing_brace_inert_witness :
    ma_parse_dsn (ascii "a\x7d=b\x7d") 5
      = some ⟨0, none, [(ascii "a\x7d", some (ascii "b\x7d"))]⟩ ∧
    ma_parse_dsn (ascii "\x7dx;k=\x7d\x7d") 7
      = some ⟨0, none, [(ascii "\x7dx", none), (ascii "k", some (ascii "\x7d\x7d"))]⟩ :=
  ⟨C10_closing_brace_inert [(ascii "a\x7d", some (ascii "b\x7d"))] false (by decide),
   C10_closing_brace_inert [(ascii "\x7dx", none), (ascii "k", some (ascii "\x7d\x7d"))]
     false (by decide)⟩

/-- C11: `mariadb_dsn_connect` returns NULL without attempting a connection when the
handle is NULL (the parser is not run either) or when `ma_parse_dsn` returns non-zero;
when the parser returns 0 it calls `mysql_real_connect` exactly once, with NULL host,
user, password, database and socket, port 0 and flags 0, and returns the result of
that call. -/
theorem C11_dsn_connect {H : Type} (rc : H → List Call → ConnectArgs → Option H) :
    (∀ (dsn : List Nat) (len : Int),
      mariadb_dsn_connect rc none dsn len
        = some { result := none, parsed := none, attempts := [] }) ∧
    (∀ (h : H) (dsn : List Nat) (len : Int) (o : Outcome),
      ma_parse_dsn dsn len = some o → o.ret ≠ 0 →
      mariadb_dsn_connect rc (some h) dsn len
        = some { result := none, parsed := some o, attempts := [] }) ∧
    (∀ (h : H) (dsn : List Nat) (len : Int) (o : Outcome),
      ma_parse_dsn dsn len = some o → o.ret = 0 →
      mariadb_dsn_connect rc (some h) dsn len
        = some { result := rc h o.calls ⟨none, none, none, none, 0, none, 0⟩,
                 parsed := some o,
                 attempts := [⟨none, none, none, none, 0, none, 0⟩] }) := by
  refine ⟨fun dsn len => rfl, ?_, ?_⟩
  · intro h dsn len o ho hret
    simp [mariadb_dsn_connect, ho, hret]
  · intro h dsn len o ho hret
    simp [mariadb_dsn_connect, ho, hret]

/-- C11 with a handle `7` and a connection function that answers with the number of
options applied: no attempt on `=x`, which fails to parse; one attempt on `a=b`. -/
theorem C11_dsn_connect_witness :
    mariadb_dsn_connect (fun (_ : Nat) cs _ => some cs.length) (some 7) (ascii "=x") 2
      = some { result := none, parsed := some ⟨1, some 0, []⟩, attempts := [] } ∧
    mariadb_dsn_connect (fun (_ : Nat) cs _ => some cs.length) (some 7) (ascii "a=b") 3
      = some { result := some 1,
               parsed := some ⟨0, none, [(ascii "a", some (ascii "b"))]⟩,
               attempts := [⟨none, none, none, none, 0, none, 0⟩] } :=
  ⟨(C11_dsn_connect (fun (_ : Nat) cs _ => some cs.length)).2.1 7 (ascii "=x") 2
      ⟨1, some 0, []⟩ (by decide) (by decide),
   (C11_dsn_connect (fun (_ : Nat) cs _ => some cs.length)).2.2 7 (ascii "a=b") 3
      ⟨0, none, [(ascii "a", some (ascii "b"))]⟩ (by decide) (by decide)⟩

/-- C12, the code on `k={}` and on `k={};a=b`: the byte after `{` is stepped over
without being looked at, so the `}` does not close the quote; the value of `k` is `}`
in the first input and `};a=b` in the second, where no pair `a=b` is applied. -/
theorem C12_empty_quoted_code :
    ma_parse_dsn (ascii "k=\x7b\x7d") 4
      = some ⟨0, none, [(ascii "k", some (ascii "\x7d"))]⟩ ∧
    ma_parse_dsn (ascii "k=\x7b\x7d;a=b") 8
      = some ⟨0, none, [(ascii "k", some (ascii "\x7d;a=b"))]⟩ := by
  decide

/-- C13, the code on `k={x}}yz`: the fourth iteration starts at the `}` of offset 4,
quoting, with a second `}` behind it; after it the bytes are moved and `end` is 7, the
quote is open and key and value are unchanged, but the cursor is at offset 6, so that
the byte `y` of offset 5, right after the literal `}`, is never scanned. -/
theorem C13_collapse_step_code :
    stateAfter 3 (init (ascii "k=\x7bx\x7d\x7dyz"))
      = some ⟨ascii "k\x00\x7bx\x7d\x7dyz\x00", 4, 8, some 0, some 3, true, []⟩ ∧
    step ⟨ascii "k\x00\x7bx\x7d\x7dyz\x00", 4, 8, some 0, some 3, true, []⟩
      = .next ⟨ascii "k\x00\x7bx\x7dyzz\x00", 6, 7, some 0, some 3, true, []⟩ := by
  decide

/-- C14, the code on `k={x}}yz`: at the start of the fifth iteration, after the
collapse, `end` is 7 and the byte at offset 7 is the stale `z`, not the zero; the
iteration with `pos = end` scans it a second time and the value applied is `x}yzz`. -/
theorem C14_end_marker_code :
    (∃ s : State, stateAfter 4 (init (ascii "k=\x7bx\x7d\x7dyz")) = some s ∧
      s.pos ≤ s.endp ∧ s.buf.getD s.endp 0 = 122) ∧
    ma_parse_dsn (ascii "k=\x7bx\x7d\x7dyz") 8
      = some ⟨0, none, [(ascii "k", some (ascii "x\x7dyzz"))]⟩ := by
  refine ⟨⟨⟨ascii "k\x00\x7bx\x7dyzz\x00", 6, 7, some 0, some 3, true, []⟩, ?_⟩, ?_⟩ <;>
    decide

theorem finish_quoted (k c : List Nat) (hk : ∀ x ∈ k, x ≠ 0) (hc : ∀ x ∈ c, x ≠ 0)
    (hd : eqIgnoreCase k dsnKeyword = false) (buf : List Nat) (pos E : Nat)
    (hb : buf = k ++ 0 :: 123 :: c ++ [0]) :
    finish ⟨buf, pos, E, some 0, some (k.length + 2), true, []⟩
      = ⟨0, none, [(k, some c)]⟩ := by
  have h := quoted_calls k c [] hk hc [] []
  rw [forwarded_single k _ hk hd] at h
  simp only [List.nil_append, List.length_nil, Nat.zero_add] at h
  subst hb
  simp only [finish]
  rw [h]

/-- C19: for every non-empty plain key `k` other than `dsn` and every content `c`
without `}` and NUL (empty or not, and free to hold `;`, `=`, `{` and whitespace),
`ma_parse_dsn` on `k={c`, where the quote is never closed, returns 0 and applies
exactly `(k, c)`: all that follows the `{` up to the end of the input is the value. -/
theorem C19_unterminated_quote (k c : List Nat) (hk : token plain k = true)
    (hd : eqIgnoreCase k dsnKeyword = false) (hc : ∀ b ∈ c, b ≠ 0 ∧ b ≠ 125) :
    ma_parse_dsn (k ++ 61 :: 123 :: c) ((k ++ 61 :: 123 :: c).length : Int)
      = some ⟨0, none, [(k, some c)]⟩ := by
  have hk' : token tokbyte k = true := token_mono plain_tokbyte hk
  have hk0 := tokbyte_ne_zero k (token_all hk')
  have hc0 : ∀ x ∈ c, x ≠ 0 := fun x hx => (hc x hx).1
  apply ma_parse_dsn_of_evalTo
  rw [init_eq_S]
  obtain ⟨b, k', hkeq, hb, hkt⟩ := token_cons hk'
  have hlen : k.length = k'.length + 1 := by rw [hkeq]; simp
  have e0 : (k ++ 61 :: 123 :: c) ++ [0] = b :: (k' ++ 61 :: 123 :: (c ++ [0])) := by
    rw [hkeq]; simp
  rw [e0]
  refine EvalTo.of_step (by simp) (step_S_key [] _ b _ none [] hb) ?_
  refine scan_tok k' hkt ([] ++ [b]) _ _ _ none [] _ (by simp; omega) ?_
  refine EvalTo.of_step (by simp; omega) (step_S_eq _ _ _ _ none []) ?_
  rw [if_pos (by simp; omega)]
  cases c with
  | nil =>
    refine EvalTo.of_step (by simp; omega)
      (step_S_open _ [] 0 _ _ _ [] (by simp; omega)) ?_
    have h := EvalTo.of_exit
      (s := S ([] ++ [b] ++ k' ++ [0] ++ [123, 0]) [] (k ++ [61, 123]).length
        (some ([] : List Nat).length) (some (([] ++ [b] ++ k' ++ [0]).length + 1)) true [])
      (by simp; omega)
    have e : finish (S ([] ++ [b] ++ k' ++ [0] ++ [123, 0]) [] (k ++ [61, 123]).length
        (some ([] : List Nat).length) (some (([] ++ [b] ++ k' ++ [0]).length + 1)) true [])
        = ⟨0, none, [(k, some [])]⟩ := by
      have e2 : ([] ++ [b] ++ k' ++ [0]).length + 1 = k.length + 2 := by
        simp; omega
      rw [e2]
      exact finish_quoted k [] hk0 (by simp) hd _ _ _ (by rw [hkeq]; simp)
    rw [e] at h
    exact h
  | cons y c' =>
    have hc' : ∀ z ∈ c', z ≠ 125 := fun z hz => (hc z (List.mem_cons_of_mem _ hz)).2
    rw [List.cons_append]
    refine EvalTo.of_step (by simp; omega)
      (step_S_open _ _ y _ _ _ [] (by simp; omega)) ?_
    refine scan_quoted c' hc' _ _ _ _ _ [] _ (by simp; omega) ?_
    refine EvalTo.of_step (by simp; omega) (step_S_nul _ _ _ _ _ _ []) ?_
    have h := EvalTo.of_exit
      (s := S ([] ++ [b] ++ k' ++ [0] ++ [123, y] ++ c' ++ [0]) []
        (k ++ 61 :: 123 :: y :: c').length
        (some ([] : List Nat).length) (some (([] ++ [b] ++ k' ++ [0]).length + 1)) true [])
      (by simp; omega)
    have e : finish (S ([] ++ [b] ++ k' ++ [0] ++ [123, y] ++ c' ++ [0]) []
        (k ++ 61 :: 123 :: y :: c').length
        (some ([] : List Nat).length) (some (([] ++ [b] ++ k' ++ [0]).length + 1)) true [])
        = ⟨0, none, [(k, some (y :: c'))]⟩ := by
      have e2 : ([] ++ [b] ++ k' ++ [0]).length + 1 = k.length + 2 := by
        simp; omega
      rw [e2]
      exact finish_quoted k (y :: c') hk0 hc0 hd _ _ _ (by rw [hkeq]; simp)
    rw [e] at h
    exact h

/-- C19 on `k={a;b=c` and on `k={`. -/
theorem C19_unterminated_quote_witness :
    ma_parse_dsn (ascii "k=\x7ba;b=c") 8
      = some ⟨0, none, [(ascii "k", some (ascii "a;b=c"))]⟩ ∧
    ma_parse_dsn (ascii "k=\x7b") 3 = some ⟨0, none, [(ascii "k", some [])]⟩ :=
  ⟨C19_unterminated_quote (ascii "k") (ascii "a;b=c") (by decide) (by decide) (by decide),
   C19_unterminated_quote (ascii "k") [] (by decide) (by decide) (by decide)⟩

/-- C20: for every non-empty plain key `k` other than `dsn` and all non-empty plain
strings `v1` and `v2`, `ma_parse_dsn` on `k=v1=v2` returns 0 and applies exactly
`(k, v2)`: the second `=` restarts the value, which is neither `v1` nor `v1=v2`. -/
theorem C20_last_eq_wins (k v1 v2 : List Nat) (hk : token plain k = true)
    (hd : eqIgnoreCase k dsnKeyword = false) (h1 : token plain v1 = true)
    (h2 : token plain v2 = true) :
    ma_parse_dsn (k ++ 61 :: v1 ++ 61 :: v2) ((k ++ 61 :: v1 ++ 61 :: v2).length : Int)
      = some ⟨0, none, [(k, some v2)]⟩ := by
  have hk' : token tokbyte k = true := token_mono plain_tokbyte hk
  have h1' : token tokbyte v1 = true := token_mono plain_tokbyte h1
  have h2' : token tokbyte v2 = true := token_mono plain_tokbyte h2
  have hk0 := tokbyte_ne_zero k (token_all hk')
  have hv0 := tokbyte_ne_zero v2 (token_all h2')
  have hl1 := token_length h1'
  have hl2 := token_length h2'
  apply ma_parse_dsn_of_evalTo
  rw [init_eq_S]
  obtain ⟨b, k', hkeq, hb, hkt⟩ := token_cons hk'
  have hlen : k.length = k'.length + 1 := by rw [hkeq]; simp
  have e0 : (k ++ 61 :: v1 ++ 61 :: v2) ++ [0]
      = b :: (k' ++ 61 :: (v1 ++ 61 :: (v2 ++ [0]))) := by
    rw [hkeq]; simp
  rw [e0]
  refine EvalTo.of_step (by simp) (step_S_key [] _ b _ none [] hb) ?_
  refine scan_tok k' hkt ([] ++ [b]) _ _ _ none [] _ (by simp; omega) ?_
  refine EvalTo.of_step (by simp; omega) (step_S_eq _ _ _ _ none []) ?_
  rw [if_pos (by simp; omega)]
  refine scan_tok v1 (token_all h1') _ _ _ _ _ [] _ (by simp; omega) ?_
  refine EvalTo.of_step (by simp; omega) (step_S_eq _ _ _ _ _ []) ?_
  rw [if_pos (by simp; omega)]
  refine scan_tok v2 (token_all h2') _ _ _ _ _ [] _ (by simp; omega) ?_
  refine EvalTo.of_step (by simp; omega) (step_S_nul _ _ _ _ _ _ []) ?_
  have h := EvalTo.of_exit
    (s := S ([] ++ [b] ++ k' ++ [0] ++ v1 ++ [0] ++ v2 ++ [0]) []
      (k ++ 61 :: v1 ++ 61 :: v2).length (some ([] : List Nat).length)
      (some (([] ++ [b] ++ k' ++ [0] ++ v1).length + 1)) false [])
    (by simp; omega)
  have e : finish (S ([] ++ [b] ++ k' ++ [0] ++ v1 ++ [0] ++ v2 ++ [0]) []
      (k ++ 61 :: v1 ++ 61 :: v2).length (some ([] : List Nat).length)
      (some (([] ++ [b] ++ k' ++ [0] ++ v1).length + 1)) false [])
      = ⟨0, none, [(k, some v2)]⟩ := by
    have hcalls := apply_option_some
      ([] ++ [b] ++ k' ++ [0] ++ v1 ++ [0] ++ v2 ++ [0] ++ []) ([] : List Nat).length k
      (some (([] ++ [b] ++ k' ++ [0] ++ v1).length + 1)) (some v2) []
      (cstr_mid _ [] k (v1 ++ 0 :: v2 ++ [0]) hk0 (by rw [hkeq]; simp))
      (by
        simp only [Option.map_some', Option.some.injEq]
        have e2 : ([] ++ [b] ++ k' ++ [0] ++ v1).length + 1 = (k ++ 0 :: v1 ++ [0]).length := by
          rw [hkeq]; simp; omega
        rw [e2]
        exact cstr_mid _ (k ++ 0 :: v1 ++ [0]) v2 [] hv0 (by rw [hkeq]; simp))
    rw [forwarded_single k _ hk0 hd] at hcalls
    simp only [finish, S]
    rw [hcalls]
    rfl
  rw [e] at h
  exact h

/-- C20 on `k=a=b` and on `opt=one=two`. -/
theorem C20_last_eq_wins_witness :
    ma_parse_dsn (ascii "k=a=b") 5 = some ⟨0, none, [(ascii "k", some (ascii "b"))]⟩ ∧
    ma_parse_dsn (ascii "opt=one=two") 11
      = some ⟨0, none, [(ascii "opt", some (ascii "two"))]⟩ :=
  ⟨C20_last_eq_wins (ascii "k") (ascii "a") (ascii "b") (by decide) (by decide)
      (by decide) (by decide),
   C20_last_eq_wins (ascii "opt") (ascii "one") (ascii "two") (by decide) (by decide)
      (by decide) (by decide)⟩

/-! ## Invariants of the loop -/

theorem stateAfter_inv (P : State → Prop)
    (hstep : ∀ s s' : State, P s → s.pos ≤ s.endp → step s = .next s' → P s') :
    ∀ (n : Nat) (s st : State), P s → stateAfter n s = some st → P st := by
  intro n
  induction n with
  | zero =>
    intro s st hs h
    simp only [stateAfter, Option.some.injEq] at h
    subst h
    exact hs
  | succ n ih =>
    intro s st hs h
    unfold stateAfter at h
    by_cases hp : s.pos ≤ s.endp
    · rw [if_pos hp] at h
      cases hst : step s with
      | error => rw [hst] at h; cases h
      | next s' =>
        rw [hst] at h
        exact ih s' st (hstep s s' hs hp hst) h
    · rw [if_neg hp] at h; cases h

theorem stateAfter_bound : ∀ (n : Nat) (s st : State), stateAfter n s = some st →
    s.pos + n ≤ st.pos ∧ st.endp ≤ s.endp := by
  intro n
  induction n with
  | zero =>
    intro s st h
    simp only [stateAfter, Option.some.injEq] at h
    subst h
    exact ⟨Nat.le_refl _, Nat.le_refl _⟩
  | succ n ih =>
    intro s st h
    unfold stateAfter at h
    by_cases hp : s.pos ≤ s.endp
    · rw [if_pos hp] at h
      cases hst : step s with
      | error => rw [hst] at h; cases h
      | next s' =>
        rw [hst] at h
        have h1 := ih s' st h
        have h2 := step_progress s s' hst
        omega
    · rw [if_neg hp] at h; cases h

theorem after_switch_pair (s s' : State) (hs : after_switch s = .next s')
    (h : (s.val.isSome = true → s.key.isSome = true) ∧
      (s.in_curly_brace = true → s.key.isSome = true)) :
    (s'.val.isSome = true → s'.key.isSome = true) ∧
      (s'.in_curly_brace = true → s'.key.isSome = true) := by
  unfold after_switch at hs
  injection hs with hs
  subst hs
  simp only
  split
  · simp
  · exact h

theorem step_pair (s s' : State) (hs : step s = .next s')
    (h : (s.val.isSome = true → s.key.isSome = true) ∧
      (s.in_curly_brace = true → s.key.isSome = true)) :
    (s'.val.isSome = true → s'.key.isSome = true) ∧
      (s'.in_curly_brace = true → s'.key.isSome = true) := by
  simp only [step] at hs
  repeat' split at hs
  all_goals first
    | (cases hs; done)
    | (refine after_switch_pair _ _ hs ?_
       simp_all [Option.isSome_iff_ne_none])
    | (injection hs with hs; subst hs; simp_all [Option.isSome_iff_ne_none])

theorem step_error_pair (s : State) (hs : step s = .error)
    (h : s.in_curly_brace = true → s.key.isSome = true) :
    s.key = none ∧ s.in_curly_brace = false ∧
      (s.buf.getD s.pos 0 = 123 ∨ s.buf.getD s.pos 0 = 61 ∨ s.buf.getD s.pos 0 = 59) := by
  simp only [step] at hs
  repeat' split at hs
  all_goals first
    | (cases hs; done)
    | (simp only [after_switch] at hs; cases hs; done)
    | (cases hq : s.in_curly_brace <;> simp_all [Option.isSome_iff_ne_none])

/-- C16: at the start of every iteration of the scan loop, for every input, a value
being set implies that a key is set, and `in_curly_brace` being true implies that a key
is set.  Hence an iteration takes `goto error` only on `{`, `=` or `;` outside a quote
with no key: the two `goto error` of the `}` case are never taken. -/
theorem C16_pair_state_invariant (s : List Nat) (n : Nat) (st : State)
    (h : stateAfter n (init s) = some st) :
    (st.val.isSome = true → st.key.isSome = true) ∧
    (st.in_curly_brace = true → st.key.isSome = true) ∧
    (step st = .error → st.key = none ∧ st.in_curly_brace = false ∧
      (st.buf.getD st.pos 0 = 123 ∨ st.buf.getD st.pos 0 = 61 ∨ st.buf.getD st.pos 0 = 59)) ∧
    (st.buf.getD st.pos 0 = 125 → step st ≠ .error) := by
  have hinv := stateAfter_inv
    (fun t => (t.val.isSome = true → t.key.isSome = true) ∧
      (t.in_curly_brace = true → t.key.isSome = true))
    (fun t t' ht _ hst => step_pair t t' hst ht) n (init s) st (by simp [init]) h
  refine ⟨hinv.1, hinv.2, fun he => step_error_pair st he hinv.2, ?_⟩
  intro hc he
  have := (step_error_pair st he hinv.2).2.2
  omega

/-- C16 on `k={a;` after three iterations: the scan is inside the quote, with key and
value set. -/
theorem C16_pair_state_invariant_witness :
    ∃ st : State, stateAfter 3 (init (ascii "k=\x7ba;")) = some st ∧
      st.in_curly_brace = true ∧
      (st.val.isSome = true → st.key.isSome = true) ∧
      (st.in_curly_brace = true → st.key.isSome = true) ∧
      (step st = .error → st.key = none ∧ st.in_curly_brace = false ∧
        (st.buf.getD st.pos 0 = 123 ∨ st.buf.getD st.pos 0 = 61 ∨
          st.buf.getD st.pos 0 = 59)) ∧
      (st.buf.getD st.pos 0 = 125 → step st ≠ .error) :=
  ⟨⟨ascii "k\x00\x7ba;\x00", 4, 5, some 0, some 3, true, []⟩, by decide, rfl,
    C16_pair_state_invariant (ascii "k=\x7ba;") 3
      ⟨ascii "k\x00\x7ba;\x00", 4, 5, some 0, some 3, true, []⟩ (by decide)⟩

theorem stateAfter_last : ∀ (n : Nat) (s st : State), stateAfter (n + 1) s = some st →
    ∃ mid : State, stateAfter n s = some mid ∧ mid.pos ≤ mid.endp ∧ step mid = .next st := by
  intro n
  induction n with
  | zero =>
    intro s st h
    unfold stateAfter at h
    by_cases hp : s.pos ≤ s.endp
    · rw [if_pos hp] at h
      cases hst : step s with
      | error => rw [hst] at h; cases h
      | next s' =>
        rw [hst] at h
        simp only [stateAfter, Option.some.injEq] at h
        subst h
        exact ⟨s, rfl, hp, hst⟩
    · rw [if_neg hp] at h; cases h
  | succ n ih =>
    intro s st h
    rw [stateAfter] at h
    by_cases hp : s.pos ≤ s.endp
    · rw [if_pos hp] at h
      cases hst : step s with
      | error => rw [hst] at h; cases h
      | next s' =>
        rw [hst] at h
        obtain ⟨mid, h1, h2, h3⟩ := ih s' st h
        refine ⟨mid, ?_, h2, h3⟩
        rw [stateAfter, if_pos hp, hst]
        exact h1
    · rw [if_neg hp] at h; cases h

/-- C17: every iteration of the scan loop that does not take `goto error` moves the
cursor forward by at least one and does not increase `end`; so, for every input of
length `len`, an iteration that starts is at most the `len + 1`-th, no state is left
after `len + 2` iterations, and `ma_parse_dsn` returns. -/
theorem C17_termination_bound (s : List Nat) :
    (∀ st st' : State, step st = .next st' →
      st.pos + 1 ≤ st'.pos ∧ st'.endp ≤ st.endp) ∧
    (∀ (n : Nat) (st : State), stateAfter n (init s) = some st → st.pos ≤ st.endp →
      n + 1 ≤ s.length + 1) ∧
    stateAfter (s.length + 2) (init s) = none ∧
    (∃ o : Outcome, ma_parse_dsn s (s.length : Int) = some o) := by
  have hb : ∀ (n : Nat) (st : State), stateAfter n (init s) = some st →
      n ≤ st.pos ∧ st.endp ≤ s.length := by
    intro n st h
    have := stateAfter_bound n (init s) st h
    simpa [init] using this
  refine ⟨fun st st' h => ⟨(step_progress st st' h).2, (step_progress st st' h).1⟩, ?_, ?_, ?_⟩
  · intro n st h hp
    have := hb n st h
    omega
  · cases hst : stateAfter (s.length + 2) (init s) with
    | none => rfl
    | some st =>
      obtain ⟨mid, h1, h2, _⟩ := stateAfter_last (s.length + 1) (init s) st hst
      have := hb (s.length + 1) mid h1
      omega
  · obtain ⟨o, ho⟩ := run_total (s.length + 2) (init s) (by simp [init])
    exact ⟨o, by rw [ma_parse_dsn_length]; exact ho⟩

/-! ## Failure without braces -/

theorem keylessAtStart_nil : ¬ KeylessAtStart [] := by
  rintro ⟨blanks, c, rest, h, _⟩
  cases blanks <;> simp at h

theorem keylessAtStart_cons (c : Nat) (cs : List Nat) :
    KeylessAtStart (c :: cs) ↔ (c = 61 ∨ c = 59) ∨ (blank c = true ∧ KeylessAtStart cs) := by
  constructor
  · rintro ⟨blanks, d, rest, h, hb, hd⟩
    cases blanks with
    | nil =>
      simp only [List.nil_append, List.cons.injEq] at h
      left; rw [h.1]; exact hd
    | cons b bs =>
      simp only [List.cons_append, List.cons.injEq] at h
      right
      refine ⟨?_, bs, d, rest, h.2, fun x hx => hb x (List.mem_cons_of_mem _ hx), hd⟩
      rw [h.1]; exact hb b (List.mem_cons_self _ _)
  · rintro (h | ⟨hc, blanks, d, rest, h, hb, hd⟩)
    · exact ⟨[], c, cs, rfl, by simp, h⟩
    · refine ⟨c :: blanks, d, rest, by rw [h]; rfl, ?_, hd⟩
      intro x hx
      rcases List.mem_cons.mp hx with hx | hx
      · rw [hx]; exact hc
      · exact hb x hx

theorem keylessAfterSemi_nil : ¬ KeylessAfterSemi [] := by
  rintro ⟨pre, tail, h, _⟩
  cases pre <;> simp at h

theorem keylessAfterSemi_cons (c : Nat) (cs : List Nat) :
    KeylessAfterSemi (c :: cs) ↔ (c = 59 ∧ KeylessAtStart cs) ∨ KeylessAfterSemi cs := by
  constructor
  · rintro ⟨pre, tail, h, ht⟩
    cases pre with
    | nil =>
      simp only [List.nil_append, List.cons.injEq] at h
      left; exact ⟨h.1, by rw [h.2]; exact ht⟩
    | cons b bs =>
      simp only [List.cons_append, List.cons.injEq] at h
      right; exact ⟨bs, tail, h.2, ht⟩
  · rintro (⟨hc, ht⟩ | ⟨pre, tail, h, ht⟩)
    · exact ⟨[], cs, by rw [hc]; rfl, ht⟩
    · exact ⟨c :: pre, tail, by rw [h]; rfl, ht⟩

theorem failsFrom_iff (s : List Nat) : ∀ key : Bool,
    failsFrom key s = true ↔ (key = false ∧ KeylessAtStart s) ∨ KeylessAfterSemi s := by
  induction s with
  | nil =>
    intro key
    simp [failsFrom, keylessAtStart_nil, keylessAfterSemi_nil]
  | cons c cs ih =>
    intro key
    rw [keylessAtStart_cons, keylessAfterSemi_cons]
    by_cases hb : blank c = true
    · have h61 : c ≠ 61 := by rintro rfl; exact absurd hb (by decide)
      have h59 : c ≠ 59 := by rintro rfl; exact absurd hb (by decide)
      simp only [failsFrom, hb, if_true, ih key, h61, h59, false_or, true_and, false_and]
    · by_cases h61 : c = 61
      · subst h61
        cases key <;> simp [failsFrom, hb, ih]
      · by_cases h59 : c = 59
        · subst h59
          cases key <;> simp [failsFrom, hb, ih]
        · simp [failsFrom, hb, h61, h59, ih]

theorem byte_cases (c : Nat) (h : c ≠ 123) :
    isspace c = true ∨ c = 0 ∨ c = 61 ∨ c = 59 ∨ tokbyte c = true := by
  by_cases h1 : isspace c = true
  · exact Or.inl h1
  by_cases h2 : c = 0
  · exact Or.inr (Or.inl h2)
  by_cases h3 : c = 61
  · exact Or.inr (Or.inr (Or.inl h3))
  by_cases h4 : c = 59
  · exact Or.inr (Or.inr (Or.inr (Or.inl h4)))
  right; right; right; right
  simp [tokbyte, h1, h2, h3, h4, h]

theorem tokbyte_not_blank (c : Nat) (h : tokbyte c = true) :
    blank c = false ∧ c ≠ 61 ∧ c ≠ 59 := by
  simp only [tokbyte, Bool.and_eq_true, bne_iff_ne, ne_eq, Bool.not_eq_true'] at h
  obtain ⟨⟨⟨⟨h0, hs⟩, h59⟩, h61⟩, _⟩ := h
  simp [blank, hs, h0, h59, h61]

theorem run_nobrace (rest : List Nat) (hr : ∀ c ∈ rest, c ≠ 123) :
    ∀ (a : List Nat) (key val : Option Nat) (cs : List Call),
      ∃ o : Outcome, EvalTo (S a (rest ++ [0]) (a.length + rest.length) key val false cs) o ∧
        (failsFrom key.isSome rest = true → o.ret = 1) ∧
        (failsFrom key.isSome rest = false → o.ret = 0 ∧ o.err = none) := by
  induction rest with
  | nil =>
    intro a key val cs
    refine ⟨_, EvalTo.of_step (by simp) (step_S_nul a [] _ key val false cs)
      (EvalTo.of_exit (s := S (a ++ [0]) [] (a.length + ([] : List Nat).length)
        key val false cs) (by simp)), ?_, ?_⟩
    · simp [failsFrom]
    · intro _; exact ⟨rfl, rfl⟩
  | cons c rest ih =>
    intro a key val cs
    have hc : c ≠ 123 := hr c (List.mem_cons_self _ _)
    have ih' : ∀ (x : Nat) (key val : Option Nat) (cs : List Call),
        ∃ o : Outcome,
          EvalTo (S (a ++ [x]) (rest ++ [0]) (a.length + (c :: rest).length) key val false cs) o ∧
          (failsFrom key.isSome rest = true → o.ret = 1) ∧
          (failsFrom key.isSome rest = false → o.ret = 0 ∧ o.err = none) := by
      intro x key val cs
      have h := ih (fun x hx => hr x (List.mem_cons_of_mem _ hx)) (a ++ [x]) key val cs
      have hE : (a ++ [x]).length + rest.length = a.length + (c :: rest).length := by
        simp; omega
      rw [hE] at h
      exact h
    have hp : (S a ((c :: rest) ++ [0]) (a.length + (c :: rest).length) key val false cs).pos
        ≤ (S a ((c :: rest) ++ [0]) (a.length + (c :: rest).length) key val false cs).endp := by
      simp
    rw [List.cons_append] at hp ⊢
    rcases byte_cases c hc with h | h | h | h | h
    · obtain ⟨o, ho, h1, h2⟩ := ih' c key val cs
      have hb : blank c = true := by simp [blank, h]
      refine ⟨o, EvalTo.of_step hp (step_S_space a _ c _ key val cs h) ho, ?_, ?_⟩
      · simpa [failsFrom, hb] using h1
      · simpa [failsFrom, hb] using h2
    · subst h
      obtain ⟨o, ho, h1, h2⟩ := ih' 0 key val cs
      refine ⟨o, EvalTo.of_step hp (step_S_nul a _ _ key val false cs) ho, ?_, ?_⟩
      · simpa [failsFrom, blank] using h1
      · simpa [failsFrom, blank] using h2
    · subst h
      cases key with
      | none =>
        refine ⟨_, EvalTo.of_error hp (step_S_err a _ 61 _ val cs (Or.inl rfl)), ?_, ?_⟩
        · intro _; rfl
        · simp [failsFrom, blank, isspace]
      | some k =>
        obtain ⟨o, ho, h1, h2⟩ := ih' 0 (some k)
          (if a.length + 1 < a.length + (61 :: rest).length then some (a.length + 1) else val) cs
        refine ⟨o, EvalTo.of_step hp (step_S_eq a _ _ k val cs) ho, ?_, ?_⟩
        · simpa [failsFrom, blank, isspace] using h1
        · simpa [failsFrom, blank, isspace] using h2
    · subst h
      cases key with
      | none =>
        refine ⟨_, EvalTo.of_error hp (step_S_err a _ 59 _ val cs (Or.inr (Or.inl rfl))), ?_, ?_⟩
        · intro _; rfl
        · simp [failsFrom, blank, isspace]
      | some k =>
        obtain ⟨o, ho, h1, h2⟩ := ih' 0 none none
          (apply_option (a ++ 0 :: (rest ++ [0])) (some k) val cs)
        refine ⟨o, EvalTo.of_step hp (step_S_semi a _ _ k val cs) ho, ?_, ?_⟩
        · simpa [failsFrom, blank, isspace] using h1
        · simpa [failsFrom, blank, isspace] using h2
    · obtain ⟨hb, h61, h59⟩ := tokbyte_not_blank c h
      cases key with
      | none =>
        obtain ⟨o, ho, h1, h2⟩ := ih' c (some a.length) val cs
        refine ⟨o, EvalTo.of_step hp (step_S_key a _ c _ val cs h) ho, ?_, ?_⟩
        · simpa [failsFrom, hb, h61, h59] using h1
        · simpa [failsFrom, hb, h61, h59] using h2
      | some k =>
        obtain ⟨o, ho, h1, h2⟩ := ih' c (some k) val cs
        refine ⟨o, EvalTo.of_step hp (step_S_tok a _ c _ k val cs h) ho, ?_, ?_⟩
        · simpa [failsFrom, hb, h61, h59] using h1
        · simpa [failsFrom, hb, h61, h59] using h2

theorem split_at_index (t : List Nat) (i : Nat) (hi : i < t.length) :
    t = t.take i ++ t.getD i 0 :: t.drop (i + 1) := by
  rw [List.getD_eq_getElem t 0 hi, ← List.drop_eq_getElem_cons hi, List.take_append_drop]

theorem getD_take_mem (t : List Nat) (i b : Nat) (hb : b ∈ t.take i) :
    ∃ j, j < i ∧ t.getD j 0 = b := by
  obtain ⟨j, hj, hjb⟩ := List.mem_take_iff_getElem.mp hb
  have hj' : j < t.length := by omega
  exact ⟨j, by omega, by rw [List.getD_eq_getElem t 0 hj']; exact hjb⟩

theorem keylessAtStart_of_index (t : List Nat) (i : Nat) (hi : i < t.length)
    (hc : t.getD i 0 = 61 ∨ t.getD i 0 = 59)
    (hb : ∀ j, j < i → blank (t.getD j 0) = true) : KeylessAtStart t := by
  refine ⟨t.take i, t.getD i 0, t.drop (i + 1), split_at_index t i hi, ?_, hc⟩
  intro b hbm
  obtain ⟨j, hj, hjb⟩ := getD_take_mem t i b hbm
  rw [← hjb]; exact hb j hj

theorem getD_drop_add (s : List Nat) (n j : Nat) : (s.drop n).getD j 0 = s.getD (n + j) 0 := by
  rw [List.getD_eq_getElem?_getD, List.getD_eq_getElem?_getD, List.getElem?_drop]

theorem getD_append_lt (a b : List Nat) (j : Nat) (hj : j < a.length) :
    (a ++ b).getD j 0 = a.getD j 0 := by
  rw [List.getD_eq_getElem?_getD, List.getD_eq_getElem?_getD, List.getElem?_append_left hj]

theorem getD_append_ge (a b : List Nat) (j : Nat) :
    (a ++ b).getD (a.length + j) 0 = b.getD j 0 := by
  rw [List.getD_eq_getElem?_getD, List.getD_eq_getElem?_getD,
    List.getElem?_append_right (Nat.le_add_right _ _), Nat.add_sub_cancel_left]

theorem getD_mem_of_lt (a : List Nat) (j : Nat) (hj : j < a.length) : a.getD j 0 ∈ a := by
  rw [List.getD_eq_getElem a 0 hj]; exact List.getElem_mem hj

theorem index_of_keylessAtStart (t : List Nat) (h : KeylessAtStart t) :
    ∃ i, i < t.length ∧ (t.getD i 0 = 61 ∨ t.getD i 0 = 59) ∧
      ∀ j, j < i → blank (t.getD j 0) = true := by
  obtain ⟨blanks, c, rest, rfl, hb, hc⟩ := h
  refine ⟨blanks.length, by simp, by rw [getD_mid]; exact hc, ?_⟩
  intro j hj
  rw [getD_append_lt _ _ j hj]
  exact hb _ (getD_mem_of_lt blanks j hj)

/-- The condition on a `=` or `;` without key, by decomposition of the input and by
indices. -/
theorem keylessIndex_iff (s : List Nat) : KeylessIndex s ↔ KeylessSeparator s := by
  constructor
  · rintro ⟨i, first, hfi, hi, hc, hfirst, hb⟩
    by_cases h0 : first = 0
    · subst h0
      exact Or.inl (keylessAtStart_of_index s i hi hc (fun j hj => hb j (Nat.zero_le _) hj))
    · have h59 : s.getD (first - 1) 0 = 59 := by
        rcases hfirst with h | h
        · exact absurd h h0
        · exact h
      right
      have hp : first - 1 < s.length := by omega
      refine ⟨s.take (first - 1), s.drop first, ?_, ?_⟩
      · have := split_at_index s (first - 1) hp
        rw [h59] at this
        have e : first - 1 + 1 = first := by omega
        rw [e] at this
        exact this
      · refine keylessAtStart_of_index (s.drop first) (i - first) (by simp; omega) ?_ ?_
        · rw [getD_drop_add]
          have e : first + (i - first) = i := by omega
          rw [e]; exact hc
        · intro j hj
          rw [getD_drop_add]
          exact hb (first + j) (by omega) (by omega)
  · rintro (h | ⟨pre, tail, rfl, h⟩)
    · obtain ⟨i, hi, hc, hb⟩ := index_of_keylessAtStart s h
      exact ⟨i, 0, Nat.zero_le _, hi, hc, Or.inl rfl, fun j _ hj => hb j hj⟩
    · obtain ⟨i, hi, hc, hb⟩ := index_of_keylessAtStart tail h
      have e : pre ++ 59 :: tail = (pre ++ [59]) ++ tail := by simp
      have el : (pre ++ [59]).length = pre.length + 1 := by simp
      refine ⟨pre.length + 1 + i, pre.length + 1, by omega, by simp; omega, ?_, ?_, ?_⟩
      · rw [e, ← el, getD_append_ge]; exact hc
      · right
        rw [Nat.add_sub_cancel, getD_mid]
      · intro j hj1 hj2
        have ej : j = (pre ++ [59]).length + (j - (pre.length + 1)) := by rw [el]; omega
        rw [e, ej, getD_append_ge]
        exact hb _ (by omega)

/-- C15: for every input without `{`, `ma_parse_dsn` returns, and it returns 1 if and
only if some byte `=` or `;` of the input is such that every byte between the previous
`;` (or the start of the input) and it is ASCII whitespace or NUL; otherwise it returns
0 and records no error.  An input of whitespace only (the empty one too) returns 0 and
applies nothing. -/
theorem C15_failure_without_braces (s : List Nat) (h : ∀ c ∈ s, c ≠ 123) :
    ∃ o : Outcome, ma_parse_dsn s (s.length : Int) = some o ∧
      (o.ret = 1 ↔ KeylessIndex s) ∧
      (¬ KeylessIndex s → o.ret = 0 ∧ o.err = none) ∧
      ((∀ c ∈ s, isspace c = true) → o = ⟨0, none, []⟩) := by
  obtain ⟨o, ho, h1, h2⟩ := run_nobrace s h [] none none []
  have hspec : failsFrom false s = true ↔ KeylessIndex s := by
    rw [keylessIndex_iff, failsFrom_iff]
    simp [KeylessSeparator]
  have hparse : ma_parse_dsn s (s.length : Int) = some o := by
    apply ma_parse_dsn_of_evalTo
    rw [init_eq_S]
    simpa using ho
  simp only [Option.isSome_none] at h1 h2
  refine ⟨o, hparse, ⟨?_, fun hk => h1 (hspec.mpr hk)⟩, ?_, ?_⟩
  · intro hret
    cases hf : failsFrom false s with
    | true => exact hspec.mp hf
    | false =>
      have := (h2 hf).1
      omega
  · intro hk
    cases hf : failsFrom false s with
    | true => exact absurd (hspec.mp hf) hk
    | false => exact h2 hf
  · intro hsp
    have hblank : EvalTo (init s) ⟨0, none, []⟩ := by
      rw [init_eq_S]
      refine skip_blank s (fun x hx => Or.inl (hsp x hx)) [] [0] _ [] _ (by simp) ?_
      exact run_sentinel ([] ++ s) _ [] (by simp)
    have := ma_parse_dsn_of_evalTo hblank
    rw [hparse] at this
    exact Option.some.inj this

/-- C15 on `a=b;;`, whose second `;` follows the first with nothing in between: the
parse fails, at offset 4. -/
theorem C15_failure_without_braces_witness :
    ma_parse_dsn (ascii "a=b;;") 5 = some ⟨1, some 4, [(ascii "a", some (ascii "b"))]⟩ ∧
    ∃ o : Outcome, ma_parse_dsn (ascii "a=b;;") 5 = some o ∧
      (o.ret = 1 ↔ KeylessIndex (ascii "a=b;;")) ∧
      (¬ KeylessIndex (ascii "a=b;;") → o.ret = 0 ∧ o.err = none) ∧
      ((∀ c ∈ ascii "a=b;;", isspace c = true) → o = ⟨0, none, []⟩) :=
  ⟨by decide, C15_failure_without_braces (ascii "a=b;;") (by decide)⟩

/-! ## Index safety -/

theorem memmove_length (buf : List Nat) (dst src n : Nat) (h1 : dst + n ≤ buf.length)
    (h2 : src + n ≤ buf.length) : (memmove buf dst src n).length = buf.length := by
  simp only [memmove, List.length_append, List.length_take, List.length_drop]
  omega

theorem memmove_getElem?_ge (buf : List Nat) (dst src n i : Nat) (h1 : dst + n ≤ buf.length)
    (h2 : src + n ≤ buf.length) (hi : dst + n ≤ i) : (memmove buf dst src n)[i]? = buf[i]? := by
  have hl : (buf.take dst ++ (buf.drop src).take n).length = dst + n := by
    simp only [List.length_append, List.length_take, List.length_drop]
    omega
  unfold memmove
  rw [List.getElem?_append_right (by rw [hl]; exact hi), hl, List.getElem?_drop]
  congr 1
  omega

theorem safe_init (s : List Nat) : Safe s.length (init s) := by
  refine ⟨by simp [init], ?_, Nat.le_refl _, ?_, ?_⟩
  · simp [init]
  · intro p hp; simp [init] at hp
  · intro p hp; simp [init] at hp

theorem after_switch_safe (len : Nat) (s s' : State) (h : Safe len s) (hp : s.pos ≤ len)
    (hs : after_switch s = .next s') : Safe len s' := by
  unfold after_switch at hs
  injection hs with hs
  subst hs
  obtain ⟨h1, h2, h3, h4, h5⟩ := h
  refine ⟨h1, h2, h3, ?_, h5⟩
  intro p hpk
  simp only at hpk
  split at hpk
  · injection hpk with hpk; omega
  · exact h4 p hpk

theorem set_zero_safe (buf : List Nat) (len pos : Nat) (h1 : buf.length = len + 1)
    (h2 : buf[len]? = some 0) :
    (buf.set pos 0).length = len + 1 ∧ (buf.set pos 0)[len]? = some 0 := by
  refine ⟨by simp [h1], ?_⟩
  rw [List.getElem?_set]
  split
  · rename_i h; subst h; simp [h1]
  · exact h2

theorem step_safe (len : Nat) (s s' : State) (h : Safe len s) (hp : s.pos ≤ s.endp)
    (hs : step s = .next s') : Safe len s' := by
  obtain ⟨h1, h2, h3, h4, h5⟩ := h
  have hset := set_zero_safe s.buf len s.pos h1 h2
  simp only [step] at hs
  repeat' split at hs
  all_goals first
    | (cases hs; done)
    | (refine after_switch_safe len _ s' ?_ ?_ hs
       · refine ⟨h1, h2, h3, h4, ?_⟩
         intro p hpv
         first
           | exact h5 p hpv
           | (simp only [Option.some.injEq] at hpv; omega)
       · first
           | omega
           | (simp only; omega))
    | (injection hs with hs
       subst hs
       refine ⟨?_, ?_, ?_, ?_, ?_⟩
       · first
           | exact h1
           | exact hset.1
           | (simp only; rw [memmove_length _ _ _ _ (by omega) (by omega)]; exact h1)
       · first
           | exact h2
           | exact hset.2
           | (simp only
              rw [memmove_getElem?_ge _ _ _ _ _ (by omega) (by omega) (by omega)]
              exact h2)
       · simp only; omega
       · intro p hpk
         first
           | exact h4 p hpk
           | simp at hpk
       · intro p hpv
         first
           | exact h5 p hpv
           | (simp at hpv; omega)
           | simp at hpv)

theorem takeWhile_terminated (l : List Nat) : ∀ (m : Nat), l[m]? = some 0 →
    (l.takeWhile (fun b => b != 0)).length ≤ m ∧
      l[(l.takeWhile (fun b => b != 0)).length]? = some 0 := by
  induction l with
  | nil => intro m h; simp at h
  | cons x xs ih =>
    intro m h
    by_cases hx : x = 0
    · subst hx
      simp
    · cases m with
      | zero => simp at h; exact absurd h hx
      | succ m' =>
        simp only [List.getElem?_cons_succ] at h
        obtain ⟨h1, h2⟩ := ih m' h
        have hne : (x != 0) = true := by simp [hx]
        simp only [List.takeWhile_cons, hne, if_true, List.length_cons,
          List.getElem?_cons_succ]
        exact ⟨by omega, h2⟩

theorem cstr_terminated (buf : List Nat) (len p : Nat) (h : buf[len]? = some 0)
    (hp : p ≤ len) :
    p + (cstr buf p).length ≤ len ∧ buf[p + (cstr buf p).length]? = some 0 := by
  have h0 : (buf.drop p)[len - p]? = some 0 := by
    rw [List.getElem?_drop]
    have e : p + (len - p) = len := by omega
    rw [e]; exact h
  obtain ⟨h1, h2⟩ := takeWhile_terminated (buf.drop p) (len - p) h0
  rw [List.getElem?_drop] at h2
  exact ⟨by unfold cstr; omega, h2⟩

theorem touched_le (len : Nat) (st : State) (h3 : st.endp ≤ len) (hp : st.pos ≤ st.endp) :
    ∀ i ∈ touched st, i ≤ len := by
  intro i hi
  unfold touched at hi
  simp only at hi
  split at hi
  · rename_i hc
    split at hi
    · simp only [List.mem_cons, List.mem_append, List.mem_map, List.mem_range] at hi
      rcases hi with hi | hi | ⟨j, hj, hi⟩ | ⟨j, hj, hi⟩ <;> omega
    · simp only [List.mem_cons, List.mem_singleton, List.not_mem_nil, or_false] at hi
      rcases hi with hi | hi <;> omega
  · simp only [List.mem_singleton] at hi
    omega

/-- C18: for every input of length `len`, at the start of every iteration and at the
exit of the loop the buffer has `len + 1` bytes with a zero at offset `len`, and
`end <= len`; every offset the iteration reads or writes (the byte at `pos`, the
look-ahead at `pos + 1`, the zero written over `=`, `;` and `}`, the two ranges of the
collapse shift, whose count `end - pos - 1` is not negative) is at most `len`; and the
string a `key` or `val` pointer designates, in the buffer as it is and as it is after
the zero is written at `pos`, starts at an offset `<= len` and ends with a zero byte
at an offset `<= len`. -/
theorem C18_index_safety (s : List Nat) (n : Nat) (st : State)
    (h : stateAfter n (init s) = some st) :
    st.buf.length = s.length + 1 ∧ st.buf[s.length]? = some 0 ∧ st.endp ≤ s.length ∧
    (st.pos ≤ st.endp → ∀ i ∈ touched st, i ≤ s.length) ∧
    (st.pos < st.endp → (0 : Int) ≤ (st.endp : Int) - (st.pos : Int) - 1) ∧
    (∀ p, st.key = some p ∨ st.val = some p →
      p ≤ s.length ∧
      p + (cstr st.buf p).length ≤ s.length ∧
      st.buf[p + (cstr st.buf p).length]? = some 0 ∧
      p + (cstr (st.buf.set st.pos 0) p).length ≤ s.length ∧
      (st.buf.set st.pos 0)[p + (cstr (st.buf.set st.pos 0) p).length]? = some 0) := by
  have hsafe : Safe s.length st :=
    stateAfter_inv (Safe s.length) (fun t t' ht hp hst => step_safe s.length t t' ht hp hst)
      n (init s) st (safe_init s) h
  obtain ⟨h1, h2, h3, h4, h5⟩ := hsafe
  refine ⟨h1, h2, h3, touched_le s.length st h3, fun hlt => by omega, ?_⟩
  intro p hp
  have hple : p ≤ s.length := by
    rcases hp with hp | hp
    · exact h4 p hp
    · exact h5 p hp
  have hset := set_zero_safe st.buf s.length st.pos h1 h2
  have c1 := cstr_terminated st.buf s.length p h2 hple
  have c2 := cstr_terminated (st.buf.set st.pos 0) s.length p hset.2 hple
  exact ⟨hple, c1.1, c1.2, c2.1, c2.2⟩

/-- C18 on `k={x}}yz` after three iterations, where the scan is at the doubled `}` of
offset 4 and the iteration touches the offsets 4 to 7 of the nine bytes. -/
theorem C18_index_safety_witness :
    ∃ st : State, stateAfter 3 (init (ascii "k=\x7bx\x7d\x7dyz")) = some st ∧
      touched st = [4, 5, 5, 6, 7, 4, 5, 6] ∧
      st.buf.length = 8 + 1 ∧ st.buf[8]? = some 0 ∧ st.endp ≤ 8 ∧
      (st.pos ≤ st.endp → ∀ i ∈ touched st, i ≤ 8) ∧
      (st.pos < st.endp → (0 : Int) ≤ (st.endp : Int) - (st.pos : Int) - 1) ∧
      (∀ p, st.key = some p ∨ st.val = some p →
        p ≤ 8 ∧
        p + (cstr st.buf p).length ≤ 8 ∧
        st.buf[p + (cstr st.buf p).length]? = some 0 ∧
        p + (cstr (st.buf.set st.pos 0) p).length ≤ 8 ∧
        (st.buf.set st.pos 0)[p + (cstr (st.buf.set st.pos 0) p).length]? = some 0) :=
  ⟨⟨ascii "k\x00\x7bx\x7d\x7dyz\x00", 4, 8, some 0, some 3, true, []⟩, by decide, by decide,
    C18_index_safety (ascii "k=\x7bx\x7d\x7dyz") 3
      ⟨ascii "k\x00\x7bx\x7d\x7dyz\x00", 4, 8, some 0, some 3, true, []⟩ (by decide)⟩

end MariadbDsn
